import Mathlib

set_option maxHeartbeats 1000000

/-!
Verification of the npm-dependency-checker CLI core.

The repository (src/cli.js, src/commands/check.js, src/commands/update.js,
src/commands/audit.js, src/services/parser.js) delegates all version-string
handling to the external node-semver library.  This file embeds, over
`List Char` and `String`:

* a model of the node-semver primitives the repository calls
  (`parse`, `clean`, `valid`, `validRange`, `compare`, `gt`,
  `major`/`minor`/`patch`), restricted to strict (non-loose) mode as the
  repository uses them;
* the repository functions themselves, translated statement by statement:
  `parseVersionRange`, `extractDependencies`, `getDependencyStats` from
  services/parser.js, `getUpdateType`, `checkDependencies` (per-dependency
  body) and `generateReport` from the check command, `getUpdateType`,
  `analyzeAvailableUpdates`, `generateRecommendations`,
  `generateUpdateReport` from the update command, and the severity filter
  and severity sort from the audit command.

Known deliberate simplifications of the node-semver model, none of which
any theorem below depends on: numeric prerelease identifiers at or above
2^53 are compared exactly rather than through IEEE doubles, and
`validRange` records the original specifier rather than the normalised
serialisation (only presence or absence of a valid range is ever used).
-/

/-! ## Character and list-of-character utilities (JavaScript string model) -/

/-- Whitespace recognised by the JavaScript String.trim used by node-semver. -/
def isWsChar (c : Char) : Bool :=
  c = ' ' || c = '\t' || c = '\n' || c = '\r' || c = '\x0b' || c = '\x0c'

/-- Model of JavaScript String.prototype.trim on a character list. -/
def trimChars (l : List Char) : List Char :=
  ((l.dropWhile isWsChar).reverse.dropWhile isWsChar).reverse

/-- Helper for `splitOnChar`: returns the first segment and remaining segments. -/
def splitOnCharA (sep : Char) : List Char → List Char × List (List Char)
  | [] => ([], [])
  | c :: t =>
    let r := splitOnCharA sep t
    if c = sep then ([], r.1 :: r.2) else (c :: r.1, r.2)

/-- Model of JavaScript String.prototype.split with a one-character separator. -/
def splitOnChar (sep : Char) (l : List Char) : List (List Char) :=
  (splitOnCharA sep l).1 :: (splitOnCharA sep l).2

/-- Splits at the first occurrence of `sep`, if any. -/
def splitFirst (sep : Char) : List Char → List Char × Option (List Char)
  | [] => ([], none)
  | c :: t =>
    if c = sep then ([], some t)
    else
      let r := splitFirst sep t
      (c :: r.1, r.2)

/-- Joins segments with a one-character separator (inverse of `splitOnChar`). -/
def joinSep (sep : Char) : List (List Char) → List Char
  | [] => []
  | p :: r =>
    match r with
    | [] => p
    | _ :: _ => p ++ sep :: joinSep sep r

/-! ## The node-semver strict version grammar -/

/-- Largest integer node-semver accepts for a version component
(JavaScript Number.MAX_SAFE_INTEGER). -/
def maxSafeInt : Nat := 9007199254740991

def isDigitCh (c : Char) : Bool := '0' ≤ c && c ≤ '9'

/-- Characters allowed in prerelease and build identifiers: [0-9A-Za-z-]. -/
def isIdentCh (c : Char) : Bool :=
  isDigitCh c || ('a' ≤ c && c ≤ 'z') || ('A' ≤ c && c ≤ 'Z') || c = '-'

def digitsToNat (l : List Char) : Nat :=
  l.foldl (fun n c => 10 * n + (c.toNat - 48)) 0

/-- Strict numeric component of a version: 0 or [1-9][0-9]*. -/
def isNumCore (l : List Char) : Bool :=
  !l.isEmpty && l.all isDigitCh && !(l.head? == some '0' && l.length != 1)

/-- Prerelease identifier as stored by node-semver: numeric identifiers are
compared as numbers, all others as strings. -/
inductive PreId where
  | num (digits : List Char)
  | alpha (chars : List Char)
deriving DecidableEq, Repr

/-- Classifies one dot-separated prerelease identifier, rejecting empty
identifiers, foreign characters and numeric identifiers with leading zeros,
exactly as the strict PRERELEASEIDENTIFIER regular expression does. -/
def classifyId (id : List Char) : Option PreId :=
  if id.isEmpty then none
  else if !id.all isIdentCh then none
  else if id.all isDigitCh then
    if id.head? == some '0' && id.length != 1 then none
    else some (.num id)
  else some (.alpha id)

/-- Parsed strict semantic version.  The numeric components keep their
original digit runs (canonical, no leading zeros); build metadata is
validated but not stored, since node-semver drops it from the normalised
version and ignores it in comparisons. -/
structure SemVer where
  majorD : List Char
  minorD : List Char
  patchD : List Char
  pre : List PreId
deriving DecidableEq, Repr

def SemVer.majorN (v : SemVer) : Nat := digitsToNat v.majorD
def SemVer.minorN (v : SemVer) : Nat := digitsToNat v.minorD
def SemVer.patchN (v : SemVer) : Nat := digitsToNat v.patchD

def renderPreId : PreId → List Char
  | .num d => d
  | .alpha c => c

/-- The normalised version string (the .version field of a node-semver
SemVer object): major.minor.patch with the prerelease suffix, build
metadata dropped. -/
def renderV (v : SemVer) : List Char :=
  v.majorD ++ '.' :: v.minorD ++ '.' :: v.patchD ++
    (if v.pre.isEmpty then [] else '-' :: joinSep '.' (v.pre.map renderPreId))

/-- Parses the dot-separated prerelease part. -/
def parsePre (p : List Char) : Option (List PreId) :=
  (splitOnChar '.' p).mapM classifyId

def validBuildPart (b : List Char) : Bool := !b.isEmpty && b.all isIdentCh

/-- Parses the major.minor.patch core, keeping the digit runs. -/
def parseMain (m : List Char) : Option (List Char × List Char × List Char) :=
  match splitOnChar '.' m with
  | [a, b, c] =>
    if isNumCore a && isNumCore b && isNumCore c
        && digitsToNat a ≤ maxSafeInt && digitsToNat b ≤ maxSafeInt
        && digitsToNat c ≤ maxSafeInt
    then some (a, b, c) else none
  | _ => none

/-- Parses main version plus optional prerelease (the part before any +). -/
def parseMainPre (core : List Char) : Option SemVer :=
  match splitFirst '-' core with
  | (m, none) => (parseMain m).map (fun t => ⟨t.1, t.2.1, t.2.2, []⟩)
  | (m, some p) =>
    match parseMain m, parsePre p with
    | some t, some ids => some ⟨t.1, t.2.1, t.2.2, ids⟩
    | _, _ => none

/-- Parses an already-trimmed character list as a strict semantic version,
including the node-semver 256-character limit and build-metadata validation. -/
def parseCore (t : List Char) : Option SemVer :=
  if t.length > 256 then none
  else
    match splitOnChar '+' t with
    | [core] => parseMainPre core
    | [core, build] =>
      if (splitOnChar '.' build).all validBuildPart then parseMainPre core else none
    | _ => none

/-- Model of node-semver parse in strict mode (trims, then matches the FULL
version grammar); returns none where the library returns null. -/
def semverParseChars (l : List Char) : Option SemVer := parseCore (trimChars l)

def semverParse (s : String) : Option SemVer := semverParseChars s.data

def isEqVCh (c : Char) : Bool := c = '=' || c = 'v'

/-- Model of semver.clean: trim, strip a leading run of = and v, parse,
and return the normalised version string. -/
def semverCleanChars (l : List Char) : Option (List Char) :=
  (semverParseChars ((trimChars l).dropWhile isEqVCh)).map renderV

def semverClean (s : String) : Option String :=
  (semverCleanChars s.data).map fun l => String.mk l

/-- Model of semver.valid applied to a possibly-null argument (null
propagates to null, as in JavaScript). -/
def semverValidOpt (s : Option String) : Option String :=
  match s with
  | none => none
  | some t => (semverParse t).map fun v => String.mk (renderV v)

/-- Model of semver.major on a version string.  The library throws on an
invalid argument; every call site below passes an already-validated version,
so the default 0 branch is unreachable there. -/
def semverMajorStr (s : String) : Nat := ((semverParse s).map SemVer.majorN).getD 0

def semverMinorStr (s : String) : Nat := ((semverParse s).map SemVer.minorN).getD 0

def semverPatchStr (s : String) : Nat := ((semverParse s).map SemVer.patchN).getD 0

/-! ## The node-semver range grammar (recogniser)

Only the presence or absence of a valid range is ever consumed by the
repository (the isRange flag), so the model is a recogniser for the strict
range grammar: comparator sets separated by ||, each set either a hyphen
range between two partials or whitespace-separated comparators, where a
comparator is an optional operator (caret, tilde, primitives) followed by an
xrange partial. -/

def isXCh (c : Char) : Bool := c = 'x' || c = 'X' || c = '*'

/-- One xrange component: a wildcard or a strict numeric identifier. -/
def isXId (l : List Char) : Bool :=
  (match l with
   | [c] => isXCh c
   | _ => false)
  || (isNumCore l && digitsToNat l ≤ maxSafeInt)

/-- Model of the XRANGEPLAIN grammar: optionally v and = prefixed partial
version of one to three dot components with wildcards, where a prerelease or
build suffix requires all three components. -/
def validPartial (l : List Char) : Bool :=
  let l1 := l.dropWhile isEqVCh
  let sb := splitFirst '+' l1
  let buildOk := match sb.2 with
    | none => true
    | some b => (splitOnChar '.' b).all validBuildPart
  let sp := splitFirst '-' sb.1
  let comps := splitOnChar '.' sp.1
  let compsOk := match comps with
    | [a] => isXId a && sp.2 == none && sb.2 == none
    | [a, b] => isXId a && isXId b && sp.2 == none && sb.2 == none
    | [a, b, c] => isXId a && isXId b && isXId c
    | _ => false
  let preOk := match sp.2 with
    | none => true
    | some p => (parsePre p).isSome
  buildOk && compsOk && preOk

/-- Comparator operators, longest first: primitives, lone tilde and its ~>
variant, caret. -/
def stripOp (l : List Char) : List Char :=
  if l.take 2 = ['<', '='] || l.take 2 = ['>', '='] || l.take 2 = ['~', '>'] then l.drop 2
  else
    match l with
    | c :: t => if c = '<' || c = '>' || c = '=' || c = '~' || c = '^' then t else l
    | [] => l

/-- A token consisting only of an operator, which the library joins with a
following partial (the COMPARATORTRIM, TILDETRIM and CARETTRIM rewrites). -/
def isOpToken (l : List Char) : Bool :=
  l = ['<'] || l = ['>'] || l = ['='] || l = ['~'] || l = ['^'] ||
  l = ['<', '='] || l = ['>', '='] || l = ['~', '>']

def validComparators : List (List Char) → Bool
  | [] => true
  | t :: rest =>
    if isOpToken t then
      match rest with
      | p :: rest2 => validPartial p && validComparators rest2
      | [] => false
    else validPartial (stripOp t) && validComparators rest

/-- One || separated subrange: either a hyphen range of two bare partials or
a sequence of comparators. -/
def validSubrange (tokens : List (List Char)) : Bool :=
  if tokens.any (fun t => t = ['-']) then
    match tokens with
    | [p1, h, p2] => h = ['-'] && validPartial p1 && validPartial p2
    | _ => false
  else validComparators tokens

/-- Splits a character list into maximal whitespace-free tokens. -/
def tokenizeWsAux (cur : List Char) : List Char → List (List Char)
  | [] => if cur.isEmpty then [] else [cur.reverse]
  | c :: t =>
    if isWsChar c then
      if cur.isEmpty then tokenizeWsAux [] t else cur.reverse :: tokenizeWsAux [] t
    else tokenizeWsAux (c :: cur) t

def tokenizeWs (l : List Char) : List (List Char) := tokenizeWsAux [] l

/-- Splits on the two-character || separator. -/
def splitOnOrOr : List Char → List (List Char)
  | [] => [[]]
  | '|' :: '|' :: t => [] :: splitOnOrOr t
  | c :: t =>
    match splitOnOrOr t with
    | h :: r => (c :: h) :: r
    | [] => [[c]]

/-- Model of semver.validRange as a recogniser: true exactly when the Range
constructor of node-semver accepts the specifier in strict mode. -/
def semverValidRangeB (s : String) : Bool :=
  (splitOnOrOr s.data).all fun sub => validSubrange (tokenizeWs sub)

/-- Model of semver.validRange.  The library returns a normalised
serialisation; the repository only ever tests the result against null, so
the model keeps the original specifier as the witness string. -/
def semverValidRange (s : String) : Option String :=
  if semverValidRangeB s then some s else none

/-! ## Comparator framework

The update command sorts version strings with the semver.compare comparator
and the audit display sorts findings by severity rank.  The following small
framework captures the three properties of a JavaScript-style three-way
comparator needed to reason about such sorts: antisymmetry under argument
swap, transitivity of strict comparison, and congruence of comparisons with
equal-comparing elements. -/

structure CmpLaws {α : Type} (c : α → α → Ordering) : Prop where
  swap : ∀ a b, c a b = (c b a).swap
  ltTrans : ∀ a b d, c a b = .lt → c b d = .lt → c a d = .lt
  eqSubst : ∀ a b d, c a b = .eq → c a d = c b d

theorem swap_eq_gt_iff {o : Ordering} : o.swap = .gt ↔ o = .lt := by
  cases o <;> simp [Ordering.swap]

theorem swap_eq_lt_iff {o : Ordering} : o.swap = .lt ↔ o = .gt := by
  cases o <;> simp [Ordering.swap]

theorem swap_eq_eq_iff {o : Ordering} : o.swap = .eq ↔ o = .eq := by
  cases o <;> simp [Ordering.swap]

theorem CmpLaws.cmpRefl {α : Type} {c : α → α → Ordering} (h : CmpLaws c) (a : α) :
    c a a = .eq := by
  have hs := h.swap a a
  cases hh : c a a
  · rw [hh] at hs; exact absurd hs (by decide)
  · rfl
  · rw [hh] at hs; exact absurd hs (by decide)

theorem CmpLaws.eqSubstR {α : Type} {c : α → α → Ordering} (h : CmpLaws c)
    (a b d : α) (he : c a b = .eq) : c d a = c d b := by
  rw [h.swap d a, h.swap d b, h.eqSubst a b d he]

theorem CmpLaws.gtOfLt {α : Type} {c : α → α → Ordering} (h : CmpLaws c)
    {a b : α} (hl : c a b = .lt) : c b a = .gt := by
  have hs := h.swap b a
  rw [hl] at hs
  exact hs

theorem CmpLaws.ltOfGt {α : Type} {c : α → α → Ordering} (h : CmpLaws c)
    {a b : α} (hl : c a b = .gt) : c b a = .lt := by
  have hs := h.swap a b
  rw [hl] at hs
  exact swap_eq_gt_iff.mp hs.symm

theorem CmpLaws.geTrans {α : Type} {c : α → α → Ordering} (h : CmpLaws c)
    (a b d : α) (h1 : c a b ≠ .lt) (h2 : c b d ≠ .lt) : c a d ≠ .lt := by
  cases hab : c a b with
  | lt => exact absurd hab h1
  | eq => rw [h.eqSubst a b d hab]; exact h2
  | gt =>
    cases hbd : c b d with
    | lt => exact absurd hbd h2
    | eq =>
      have : c a b = c a d := h.eqSubstR b d a hbd
      rw [← this, hab]
      decide
    | gt =>
      have hba : c b a = .lt := h.ltOfGt hab
      have hdb : c d b = .lt := h.ltOfGt hbd
      have : c d a = .lt := h.ltTrans d b a hdb hba
      rw [h.swap a d, this]
      decide

/-- Comparator induced by a projection into a linear order. -/
def cmpOn {α β : Type} [LinearOrder β] (f : α → β) : α → α → Ordering :=
  fun a b => cmp (f a) (f b)

theorem cmpOn_laws {α β : Type} [LinearOrder β] (f : α → β) : CmpLaws (cmpOn f) where
  swap a b := by simp [cmpOn, cmp_swap]
  ltTrans a b d h1 h2 := by
    simp only [cmpOn, cmp_eq_lt_iff] at h1 h2 ⊢
    exact lt_trans h1 h2
  eqSubst a b d h := by
    simp only [cmpOn, cmp_eq_eq_iff] at h
    simp [cmpOn, h]

/-- Lexicographic composition of two comparators. -/
def cmpThen {α : Type} (c1 c2 : α → α → Ordering) : α → α → Ordering :=
  fun a b => (c1 a b).then (c2 a b)

theorem cmpThen_laws {α : Type} {c1 c2 : α → α → Ordering}
    (h1 : CmpLaws c1) (h2 : CmpLaws c2) : CmpLaws (cmpThen c1 c2) where
  swap a b := by simp [cmpThen, h1.swap a b, h2.swap a b, Ordering.swap_then]
  ltTrans a b d ha hb := by
    simp only [cmpThen, Ordering.then_eq_lt] at ha hb ⊢
    rcases ha with ha | ⟨ha, ha2⟩
    · rcases hb with hb | ⟨hb, hb2⟩
      · exact Or.inl (h1.ltTrans a b d ha hb)
      · exact Or.inl (by rw [← h1.eqSubstR b d a hb]; exact ha)
    · rcases hb with hb | ⟨hb, hb2⟩
      · exact Or.inl (by rw [h1.eqSubst a b d ha]; exact hb)
      · exact Or.inr ⟨by rw [h1.eqSubst a b d ha]; exact hb,
          h2.ltTrans a b d ha2 hb2⟩
  eqSubst a b d h := by
    simp only [cmpThen, Ordering.then_eq_eq] at h
    simp [cmpThen, h1.eqSubst a b d h.1, h2.eqSubst a b d h.2]

/-- Elementwise lexicographic comparison of lists (shorter prefix first). -/
def listCmp {α : Type} (c : α → α → Ordering) : List α → List α → Ordering
  | [], [] => .eq
  | [], _ :: _ => .lt
  | _ :: _, [] => .gt
  | a :: as, b :: bs => (c a b).then (listCmp c as bs)

theorem listCmp_laws {α : Type} {c : α → α → Ordering} (h : CmpLaws c) :
    CmpLaws (listCmp c) where
  swap a b := by
    induction a generalizing b with
    | nil => cases b <;> rfl
    | cons x xs ih =>
      cases b with
      | nil => rfl
      | cons y ys => simp [listCmp, h.swap x y, ih ys, Ordering.swap_then]
  ltTrans a b d ha hb := by
    induction a generalizing b d with
    | nil =>
      cases b with
      | nil => exact absurd ha (by simp [listCmp])
      | cons y ys =>
        cases d with
        | nil => exact absurd hb (by simp [listCmp])
        | cons z zs => simp [listCmp]
    | cons x xs ih =>
      cases b with
      | nil => exact absurd ha (by simp [listCmp])
      | cons y ys =>
        cases d with
        | nil => exact absurd hb (by simp [listCmp])
        | cons z zs =>
          simp only [listCmp, Ordering.then_eq_lt] at ha hb ⊢
          rcases ha with ha | ⟨ha, ha2⟩
          · rcases hb with hb | ⟨hb, hb2⟩
            · exact Or.inl (h.ltTrans x y z ha hb)
            · exact Or.inl (by rw [← h.eqSubstR y z x hb]; exact ha)
          · rcases hb with hb | ⟨hb, hb2⟩
            · exact Or.inl (by rw [h.eqSubst x y z ha]; exact hb)
            · exact Or.inr ⟨by rw [h.eqSubst x y z ha]; exact hb, ih ys zs ha2 hb2⟩
  eqSubst a b d h0 := by
    induction a generalizing b d with
    | nil =>
      cases b with
      | nil => rfl
      | cons y ys => exact absurd h0 (by simp [listCmp])
    | cons x xs ih =>
      cases b with
      | nil => exact absurd h0 (by simp [listCmp])
      | cons y ys =>
        simp only [listCmp, Ordering.then_eq_eq] at h0
        cases d with
        | nil => simp [listCmp]
        | cons z zs =>
          simp only [listCmp]
          rw [h.eqSubst x y z h0.1, ih ys zs h0.2]

def charCmp : Char → Char → Ordering := cmpOn fun c => c

theorem charCmp_laws : CmpLaws charCmp := cmpOn_laws _

/-- Model of node-semver compareIdentifiers on stored prerelease
identifiers: numeric before alphanumeric, numeric by value, alphanumeric by
character order. -/
def pidCmp : PreId → PreId → Ordering
  | .num a, .num b => cmp (digitsToNat a) (digitsToNat b)
  | .num _, .alpha _ => .lt
  | .alpha _, .num _ => .gt
  | .alpha a, .alpha b => listCmp charCmp a b

theorem pidCmp_laws : CmpLaws pidCmp where
  swap a b := by
    cases a with
    | num x =>
      cases b with
      | num y => exact (cmp_swap (digitsToNat y) (digitsToNat x)).symm
      | alpha y => rfl
    | alpha x =>
      cases b with
      | num y => rfl
      | alpha y => exact (listCmp_laws charCmp_laws).swap x y
  ltTrans a b d h1 h2 := by
    cases a with
    | num x =>
      cases b with
      | num y =>
        cases d with
        | num w =>
          have hxy := (cmp_eq_lt_iff (digitsToNat x) (digitsToNat y)).mp h1
          have hyw := (cmp_eq_lt_iff (digitsToNat y) (digitsToNat w)).mp h2
          exact (cmp_eq_lt_iff (digitsToNat x) (digitsToNat w)).mpr (lt_trans hxy hyw)
        | alpha w => rfl
      | alpha y =>
        cases d with
        | num w => exact absurd h2 (by simp [pidCmp])
        | alpha w => rfl
    | alpha x =>
      cases b with
      | num y => exact absurd h1 (by simp [pidCmp])
      | alpha y =>
        cases d with
        | num w => exact absurd h2 (by simp [pidCmp])
        | alpha w => exact (listCmp_laws charCmp_laws).ltTrans x y w h1 h2
  eqSubst a b d h := by
    cases a with
    | num x =>
      cases b with
      | num y =>
        have hxy := (cmp_eq_eq_iff (digitsToNat x) (digitsToNat y)).mp h
        cases d with
        | num w => simp only [pidCmp, hxy]
        | alpha w => rfl
      | alpha y => exact absurd h (by simp [pidCmp])
    | alpha x =>
      cases b with
      | num y => exact absurd h (by simp [pidCmp])
      | alpha y =>
        cases d with
        | num w => rfl
        | alpha w => exact (listCmp_laws charCmp_laws).eqSubst x y w h

/-- Model of the node-semver prerelease comparison: a version with a
prerelease sorts below the same version without one; two prerelease lists
compare lexicographically. -/
def preCmp : List PreId → List PreId → Ordering
  | [], [] => .eq
  | [], _ :: _ => .gt
  | _ :: _, [] => .lt
  | a :: as, b :: bs => (pidCmp a b).then (listCmp pidCmp as bs)

theorem preCmp_eq_listCmp (a b : PreId) (as bs : List PreId) :
    preCmp (a :: as) (b :: bs) = listCmp pidCmp (a :: as) (b :: bs) := rfl

theorem preCmp_laws : CmpLaws preCmp where
  swap a b := by
    cases a <;> cases b
    · rfl
    · rfl
    · rfl
    · rw [preCmp_eq_listCmp, preCmp_eq_listCmp]
      exact (listCmp_laws pidCmp_laws).swap _ _
  ltTrans a b d h1 h2 := by
    cases a <;> cases b
    · exact absurd h1 (by simp [preCmp])
    · exact absurd h1 (by simp [preCmp])
    · cases d
      · exact absurd h2 (by simp [preCmp])
      · exact absurd h2 (by simp [preCmp])
    · cases d
      · rfl
      · rw [preCmp_eq_listCmp] at h1 h2 ⊢
        exact (listCmp_laws pidCmp_laws).ltTrans _ _ _ h1 h2
  eqSubst a b d h := by
    cases a <;> cases b
    · rfl
    · exact absurd h (by simp [preCmp])
    · exact absurd h (by simp [preCmp])
    · cases d
      · rfl
      · rw [preCmp_eq_listCmp] at h ⊢
        rw [preCmp_eq_listCmp]
        exact (listCmp_laws pidCmp_laws).eqSubst _ _ _ h

/-- Transfers comparator laws along a projection. -/
theorem cmpLaws_comap {α β : Type} {c : β → β → Ordering} (h : CmpLaws c)
    (f : α → β) : CmpLaws fun a b => c (f a) (f b) where
  swap a b := h.swap (f a) (f b)
  ltTrans a b d h1 h2 := h.ltTrans (f a) (f b) (f d) h1 h2
  eqSubst a b d h0 := h.eqSubst (f a) (f b) (f d) h0

/-- Model of semver.compare: lexicographic on major, minor, patch, then the
prerelease rule. -/
def svCmp : SemVer → SemVer → Ordering :=
  cmpThen (cmpOn SemVer.majorN)
    (cmpThen (cmpOn SemVer.minorN)
      (cmpThen (cmpOn SemVer.patchN) fun a b => preCmp a.pre b.pre))

theorem svCmp_laws : CmpLaws svCmp :=
  cmpThen_laws (cmpOn_laws _)
    (cmpThen_laws (cmpOn_laws _)
      (cmpThen_laws (cmpOn_laws _) (cmpLaws_comap preCmp_laws SemVer.pre)))

/-- Model of semver.gt on version strings.  The library throws on an
unparseable argument; the call sites in the repository reach it only with
validated versions, where the catch-all branch is unreachable. -/
def semverGtStr (a b : String) : Bool :=
  match semverParse a, semverParse b with
  | some x, some y => svCmp x y == Ordering.gt
  | _, _ => false

/-! ## Insertion sort (model of the JavaScript Array.prototype.sort calls) -/

def insertDesc {α : Type} (c : α → α → Ordering) (a : α) : List α → List α
  | [] => [a]
  | b :: t => if c a b = .lt then b :: insertDesc c a t else a :: b :: t

/-- Sorts so that an element comes before another whenever the comparator
does not order it strictly below; with the comparator of the source this is
exactly the order the JavaScript sort call produces. -/
def sortDesc {α : Type} (c : α → α → Ordering) : List α → List α
  | [] => []
  | a :: t => insertDesc c a (sortDesc c t)

theorem insertDesc_perm {α : Type} (c : α → α → Ordering) (a : α) (l : List α) :
    (insertDesc c a l).Perm (a :: l) := by
  induction l with
  | nil => exact List.Perm.refl _
  | cons b t ih =>
    by_cases hc : c a b = .lt
    · simp only [insertDesc, if_pos hc]
      exact (List.Perm.cons b ih).trans (List.Perm.swap a b t)
    · simp only [insertDesc, if_neg hc]
      exact List.Perm.refl _

theorem sortDesc_perm {α : Type} (c : α → α → Ordering) (l : List α) :
    (sortDesc c l).Perm l := by
  induction l with
  | nil => exact List.Perm.refl _
  | cons a t ih =>
    exact (insertDesc_perm c a (sortDesc c t)).trans (List.Perm.cons a ih)

theorem insertDesc_pairwise {α : Type} {c : α → α → Ordering} (h : CmpLaws c)
    (a : α) (l : List α) (hp : l.Pairwise fun x y => c x y ≠ .lt) :
    (insertDesc c a l).Pairwise fun x y => c x y ≠ .lt := by
  induction l with
  | nil => simp [insertDesc]
  | cons b t ih =>
    rcases List.pairwise_cons.mp hp with ⟨hb, ht⟩
    by_cases hc : c a b = .lt
    · simp only [insertDesc, if_pos hc]
      refine List.pairwise_cons.mpr ⟨?_, ih ht⟩
      intro x hx
      rcases List.mem_cons.mp ((insertDesc_perm c a t).mem_iff.mp hx) with rfl | hxt
      · rw [h.gtOfLt hc]; decide
      · exact hb x hxt
    · simp only [insertDesc, if_neg hc]
      refine List.pairwise_cons.mpr ⟨?_, hp⟩
      intro x hx
      rcases List.mem_cons.mp hx with rfl | hxt
      · exact hc
      · exact h.geTrans a b x hc (hb x hxt)

theorem sortDesc_pairwise {α : Type} {c : α → α → Ordering} (h : CmpLaws c)
    (l : List α) : (sortDesc c l).Pairwise fun x y => c x y ≠ .lt := by
  induction l with
  | nil => simp [sortDesc]
  | cons a t ih => exact insertDesc_pairwise h a (sortDesc c t) ih

theorem isLE_iff_ne_gt {o : Ordering} : o.isLE = true ↔ o ≠ .gt := by
  cases o <;> simp [Ordering.isLE]

theorem pairwise_head_max {α : Type} {c : α → α → Ordering} (h : CmpLaws c)
    {h0 : α} {rest : List α}
    (hp : (h0 :: rest).Pairwise fun x y => c x y ≠ .lt) :
    ∀ x ∈ h0 :: rest, (c x h0).isLE = true := by
  intro x hx
  rcases List.mem_cons.mp hx with rfl | hxr
  · rw [h.cmpRefl x]; rfl
  · have := (List.pairwise_cons.mp hp).1 x hxr
    refine isLE_iff_ne_gt.mpr ?_
    intro hg
    exact this (h.ltOfGt hg)

/-! ## services/parser.js -/

/-- Result of PackageParser.parseVersionRange (services/parser.js).  Field
for field the object literal the source returns. -/
structure VersionRangeInfo where
  original : String
  clean : Option String
  valid : Option String
  range : Option String
  isExact : Bool
  isRange : Bool
  major : Option Nat
  minor : Option Nat
  patch : Option Nat
deriving DecidableEq, Repr

/-- PackageParser.parseVersionRange: clean, valid, validRange, the two
classification flags and the optional numeric components. -/
def parseVersionRange (version : String) : VersionRangeInfo :=
  let clean := semverClean version
  let valid := semverValidOpt clean
  let range := semverValidRange version
  { original := version
    clean := clean
    valid := valid
    range := range
    isExact := valid.isSome
    isRange := range.isSome && !valid.isSome
    major := valid.map semverMajorStr
    minor := valid.map semverMinorStr
    patch := valid.map semverPatchStr }

/-- One entry of the Map built by PackageParser.extractDependencies. -/
structure DepRecord where
  name : String
  version : String
  type : String
  range : VersionRangeInfo
deriving DecidableEq, Repr

/-- Model of a parsed package.json document.  Each dependency section is
either absent or a list of name/specifier entries in declaration order; a
section of non-object type behaves exactly like an absent one under the
typeof check of the source, so both are modelled as none. -/
structure PackageJson where
  name : Option String
  version : Option String
  dependencies : Option (List (String × String))
  devDependencies : Option (List (String × String))
  peerDependencies : Option (List (String × String))
  optionalDependencies : Option (List (String × String))
deriving Repr

/-- The fixed iteration order of this.dependencyTypes with the entries of
each present section. -/
def sectionsOf (pkg : PackageJson) : List (String × List (String × String)) :=
  [("dependencies", pkg.dependencies.getD []),
   ("devDependencies", pkg.devDependencies.getD []),
   ("peerDependencies", pkg.peerDependencies.getD []),
   ("optionalDependencies", pkg.optionalDependencies.getD [])]

def mkDepRecord (ty name version : String) : DepRecord :=
  ⟨name, version, ty, parseVersionRange version⟩

/-- Model of JavaScript Map.prototype.set on an association list: an
existing key keeps its insertion position and gets the new value, a new key
is appended. -/
def mapSet (m : List (String × DepRecord)) (k : String) (v : DepRecord) :
    List (String × DepRecord) :=
  if m.any fun p => p.1 == k then
    m.map fun p => if p.1 == k then (k, v) else p
  else m ++ [(k, v)]

/-- PackageParser.extractDependencies: iterate the four sections in order,
inserting every entry into one Map keyed by package name. -/
def extractDependencies (pkg : PackageJson) : List (String × DepRecord) :=
  (sectionsOf pkg).foldl
    (fun m sec => sec.2.foldl (fun m2 e => mapSet m2 e.1 (mkDepRecord sec.1 e.1 e.2)) m)
    []

/-- All section entries of the manifest in iteration order, tagged with
their section name; the stream `extractDependencies` consumes. -/
def allEntries (pkg : PackageJson) : List (String × String × String) :=
  (sectionsOf pkg).flatMap fun sec => sec.2.map fun e => (sec.1, e.1, e.2)

/-- Map lookup on the association list (JavaScript Map.prototype.get). -/
def getMap (m : List (String × DepRecord)) (k : String) : Option DepRecord :=
  (m.find? fun p => p.1 == k).map Prod.snd

/-- Result of PackageParser.getDependencyStats. -/
structure DepStats where
  total : Nat
  byType : List (String × Nat)
  exactVersions : Nat
  rangeVersions : Nat
  invalidVersions : Nat
deriving Repr

/-- Increment of stats.byType for one dependency (object property update,
first-appearance key order). -/
def bumpType (byType : List (String × Nat)) (ty : String) : List (String × Nat) :=
  if byType.any fun p => p.1 == ty then
    byType.map fun p => if p.1 == ty then (p.1, p.2 + 1) else p
  else byType ++ [(ty, 1)]

/-- PackageParser.getDependencyStats. -/
def getDependencyStats (pkg : PackageJson) : DepStats :=
  let deps := (extractDependencies pkg).map Prod.snd
  { total := deps.length
    byType := deps.foldl (fun m d => bumpType m d.type) []
    exactVersions := (deps.filter fun d => d.range.isExact).length
    rangeVersions := (deps.filter fun d => !d.range.isExact && d.range.isRange).length
    invalidVersions := (deps.filter fun d => !d.range.isExact && !d.range.isRange).length }

/-! ## The check command (src/commands/check.js, shipped inside src/cli.js)

JavaScript null and undefined arguments are modelled with Option; the falsy
test on a string argument is the empty-string test. -/

namespace CheckCmd

/-- getUpdateType of the check command. -/
def getUpdateType (currentVersion newVersion : Option String) : String :=
  match currentVersion, newVersion with
  | some cv, some nv =>
    if cv = "" || nv = "" then "unknown"
    else
      match semverParse cv, semverParse nv with
      | some current, some latest =>
        if latest.majorN > current.majorN then "major"
        else if latest.minorN > current.minorN then "minor"
        else if latest.patchN > current.patchN then "patch"
        else "none"
      | _, _ => "unknown"
  | _, _ => "unknown"

/-- A vulnerability finding as produced by the registry service or the audit
mock database. -/
structure Finding where
  id : String
  severity : String
  title : String
  description : String
  affectedVersions : String
  fixedVersions : String
  cwe : String
deriving DecidableEq, Repr

/-- Per-dependency result object of checkDependencies.  The lookup argument
is the settled getLatestVersion promise: none for a rejected promise or a
falsy value, mirrored by the empty-string guard; the vulns argument is the
getVulnerabilities result, consulted only when range.clean is set. -/
structure CheckResult where
  name : String
  currentVersion : String
  latestVersion : Option String
  updateAvailable : Bool
  updateType : Option String
  vulnerabilities : List Finding
  dependencyType : String
  range : VersionRangeInfo
deriving Repr

/-- Loop body of checkDependencies for one dependency. -/
def processCheckDependency (dep : DepRecord) (lookup : Option String)
    (vulns : List Finding) : CheckResult :=
  let base : CheckResult :=
    { name := dep.name
      currentVersion := dep.version
      latestVersion := none
      updateAvailable := false
      updateType := none
      vulnerabilities := if dep.range.clean.isSome then vulns else []
      dependencyType := dep.type
      range := dep.range }
  match lookup with
  | none => base
  | some latest =>
    if latest = "" then base
    else
      let updateAvailable := semverGtStr latest (dep.range.clean.getD "0.0.0")
      { base with
        latestVersion := some latest
        updateAvailable := updateAvailable
        updateType :=
          if updateAvailable then some (getUpdateType dep.range.clean (some latest))
          else none }

/-- The summary object of generateReport. -/
structure Summary where
  total : Nat
  upToDate : Nat
  outdated : Nat
  majorUpdates : Nat
  minorUpdates : Nat
  patchUpdates : Nat
  vulnerabilities : Nat
deriving Repr

/-- The report object of generateReport. -/
structure Report where
  packageName : Option String
  packageVersion : Option String
  summary : Summary
  dependencies : List CheckResult
  stats : DepStats
deriving Repr

/-- generateReport of the check command. -/
def generateReport (results : List CheckResult) (pkg : PackageJson) : Report :=
  { packageName := pkg.name
    packageVersion := pkg.version
    summary :=
      { total := results.length
        upToDate := (results.filter fun r => !r.updateAvailable).length
        outdated := (results.filter fun r => r.updateAvailable).length
        majorUpdates := (results.filter fun r => r.updateType == some "major").length
        minorUpdates := (results.filter fun r => r.updateType == some "minor").length
        patchUpdates := (results.filter fun r => r.updateType == some "patch").length
        vulnerabilities := (results.map fun r => r.vulnerabilities.length).sum }
    dependencies := results
    stats := getDependencyStats pkg }

end CheckCmd

/-! ## The update command (src/commands/update.js) -/

namespace UpdateCmd

/-- getUpdateType of the update command (textually identical to the one in
the check command). -/
def getUpdateType (currentVersion newVersion : Option String) : String :=
  match currentVersion, newVersion with
  | some cv, some nv =>
    if cv = "" || nv = "" then "unknown"
    else
      match semverParse cv, semverParse nv with
      | some current, some latest =>
        if latest.majorN > current.majorN then "major"
        else if latest.minorN > current.minorN then "minor"
        else if latest.patchN > current.patchN then "patch"
        else "none"
      | _, _ => "unknown"
  | _, _ => "unknown"

/-- One element of the updates array of analyzeAvailableUpdates; the source
stores the version string, its classification, the breaking flag and the
parsed semver object. -/
structure UpdateCandidate where
  version : String
  type : String
  breaking : Bool
  sv : SemVer
deriving DecidableEq, Repr

/-- Loop body of analyzeAvailableUpdates for one sorted version: skip
versions not strictly above current, classify, skip unrequested majors. -/
def candOf (currentVersion : String) (includeMajor : Bool)
    (p : String × SemVer) : Option UpdateCandidate :=
  if !semverGtStr p.1 currentVersion then none
  else
    let updateType := getUpdateType (some currentVersion) (some p.1)
    if updateType == "major" && !includeMajor then none
    else some ⟨p.1, updateType, updateType == "major", p.2⟩

/-- analyzeAvailableUpdates: keep valid versions, sort descending with
semver.compare, then run the loop body on each.  The JavaScript sort call
keeps the version strings and compares their parses; the model sorts the
strings paired with their (always succeeding) parses. -/
def analyzeAvailableUpdates (currentRange : VersionRangeInfo)
    (allVersions : List String) (includeMajor : Bool) : List UpdateCandidate :=
  match currentRange.clean with
  | none => []
  | some currentVersion =>
    let sortedVersions :=
      sortDesc (fun p q : String × SemVer => svCmp p.2 q.2)
        (allVersions.filterMap fun v => (semverParse v).map fun sv => (v, sv))
    sortedVersions.filterMap (candOf currentVersion includeMajor)

/-- One recommendation object of generateRecommendations. -/
structure Recommendation where
  type : String
  version : String
  priority : String
  reason : String
  breaking : Bool
deriving DecidableEq, Repr

/-- generateRecommendations: the newest available update of each bucket, the
major bucket only when the --major option is set. -/
def generateRecommendations (availableUpdates : List UpdateCandidate)
    (includeMajor : Bool) : List Recommendation :=
  if availableUpdates.isEmpty then []
  else
    let patches := availableUpdates.filter fun u => u.type == "patch"
    let minors := availableUpdates.filter fun u => u.type == "minor"
    let majors := availableUpdates.filter fun u => u.type == "major"
    (match patches with
     | p :: _ => [⟨"patch", p.version, "high", "Safe bug fixes and improvements", false⟩]
     | [] => [])
    ++
    (match minors with
     | m :: _ => [⟨"minor", m.version, "medium", "New features and improvements", false⟩]
     | [] => [])
    ++
    (if includeMajor then
      match majors with
      | m :: _ =>
        [⟨"major", m.version, "low", "Major version with potential breaking changes", true⟩]
      | [] => []
     else [])

/-- Per-dependency result object of getUpdateRecommendations.  The two
lookup arguments are the settled getLatestVersion and getVersions promises;
a rejected or falsy latest version leaves the initial empty fields. -/
structure UpdateResult where
  name : String
  currentVersion : String
  dependencyType : String
  latestVersion : Option String
  availableUpdates : List UpdateCandidate
  recommendations : List Recommendation
deriving Repr

/-- Loop body of getUpdateRecommendations for one dependency. -/
def buildUpdateResult (dep : DepRecord) (latestLookup : Option String)
    (versionsLookup : Option (List String)) (includeMajor : Bool) : UpdateResult :=
  let base : UpdateResult :=
    { name := dep.name
      currentVersion := dep.version
      dependencyType := dep.type
      latestVersion := none
      availableUpdates := []
      recommendations := [] }
  match latestLookup with
  | none => base
  | some latest =>
    if latest = "" then base
    else
      let avail :=
        match versionsLookup with
        | some vs => analyzeAvailableUpdates dep.range vs includeMajor
        | none => []
      { base with
        latestVersion := some latest
        availableUpdates := avail
        recommendations := generateRecommendations avail includeMajor }

/-- A recommendation flattened into the report with its package fields
(the object spread in generateUpdateReport). -/
structure AugRec where
  type : String
  version : String
  priority : String
  reason : String
  breaking : Bool
  package : String
  currentVersion : String
  dependencyType : String
deriving DecidableEq, Repr

/-- The summary object of generateUpdateReport. -/
structure UpdateSummary where
  total : Nat
  upToDate : Nat
  hasUpdates : Nat
  patchUpdates : Nat
  minorUpdates : Nat
  majorUpdates : Nat
deriving Repr

/-- The report object of generateUpdateReport. -/
structure UpdateReport where
  packageName : Option String
  packageVersion : Option String
  summary : UpdateSummary
  recommendations : List AugRec
  packages : List UpdateResult
deriving Repr

/-- generateUpdateReport of the update command. -/
def generateUpdateReport (updateResults : List UpdateResult)
    (pkg : PackageJson) : UpdateReport :=
  let allRecommendations :=
    updateResults.flatMap fun r =>
      r.recommendations.map fun rc =>
        AugRec.mk rc.type rc.version rc.priority rc.reason rc.breaking
          r.name r.currentVersion r.dependencyType
  { packageName := pkg.name
    packageVersion := pkg.version
    summary :=
      { total := updateResults.length
        upToDate := (updateResults.filter fun r => r.recommendations.isEmpty).length
        hasUpdates := (updateResults.filter fun r => !r.recommendations.isEmpty).length
        patchUpdates := (allRecommendations.filter fun r => r.type == "patch").length
        minorUpdates := (allRecommendations.filter fun r => r.type == "minor").length
        majorUpdates := (allRecommendations.filter fun r => r.type == "major").length }
    recommendations := allRecommendations
    packages := updateResults }

end UpdateCmd

/-! ## The audit command (src/commands/audit.js) -/

namespace AuditCmd

/-- The severityLevels array of performSecurityAudit. -/
def severityLevels : List String := ["low", "moderate", "high", "critical"]

/-- Model of JavaScript Array.prototype.indexOf on string arrays. -/
def jsIndexOf : List String → String → Int
  | [], _ => -1
  | t :: r, s =>
    if t = s then 0
    else
      let i := jsIndexOf r s
      if i = -1 then -1 else i + 1

/-- Model of JavaScript String.prototype.toLowerCase (characterwise). -/
def jsToLower (s : String) : String := String.mk (s.data.map Char.toLower)

/-- The severity filter of performSecurityAudit applied to the findings of
one package: keep a finding when its severity index is at least the index of
the (lowercased) requested minimum severity. -/
def auditFilter (severityLevel : String) (vulns : List CheckCmd.Finding) :
    List CheckCmd.Finding :=
  let minSeverityIndex := jsIndexOf severityLevels (jsToLower severityLevel)
  vulns.filter fun v => minSeverityIndex ≤ jsIndexOf severityLevels v.severity

/-- The severityOrder ranks of displayAuditResults.  A severity outside the
four levels reads undefined in the source and never reaches the sort (the
filter admits only ranked severities); the model gives it the largest rank. -/
def severityOrderRank (s : String) : Int :=
  if s = "critical" then 0
  else if s = "high" then 1
  else if s = "moderate" then 2
  else if s = "low" then 3
  else 4

/-- The sort of displayAuditResults: ascending severityOrder rank, critical
first. -/
def sortVulns (vulns : List CheckCmd.Finding) : List CheckCmd.Finding :=
  sortDesc (fun a b => cmp (severityOrderRank b.severity) (severityOrderRank a.severity)) vulns

end AuditCmd

/-! ## Split and join lemmas for the parse and render round trip -/

theorem joinSep_nil (sep : Char) : joinSep sep [] = [] := rfl

theorem joinSep_single (sep : Char) (p : List Char) : joinSep sep [p] = p := rfl

theorem joinSep_cons2 (sep : Char) (p q : List Char) (r : List (List Char)) :
    joinSep sep (p :: q :: r) = p ++ sep :: joinSep sep (q :: r) := rfl

theorem splitOnCharA_cons_sep (sep : Char) (t : List Char) :
    splitOnCharA sep (sep :: t) =
      ([], (splitOnCharA sep t).1 :: (splitOnCharA sep t).2) := by
  simp [splitOnCharA]

theorem splitOnCharA_cons_ne {sep c : Char} (hc : ¬c = sep) (t : List Char) :
    splitOnCharA sep (c :: t) =
      (c :: (splitOnCharA sep t).1, (splitOnCharA sep t).2) := by
  simp [splitOnCharA, if_neg hc]

theorem splitOnChar_cons_sep (sep : Char) (t : List Char) :
    splitOnChar sep (sep :: t) = [] :: splitOnChar sep t := by
  simp only [splitOnChar, splitOnCharA_cons_sep]

theorem splitOnChar_cons_ne {sep c : Char} (hc : ¬c = sep) (t : List Char) :
    splitOnChar sep (c :: t) =
      (c :: (splitOnChar sep t).head!) :: (splitOnChar sep t).tail := by
  simp only [splitOnChar, splitOnCharA_cons_ne hc]
  rfl

theorem joinSep_splitOnChar (sep : Char) (l : List Char) :
    joinSep sep (splitOnChar sep l) = l := by
  induction l with
  | nil => rfl
  | cons c t ih =>
    rcases hSA : splitOnCharA sep t with ⟨h, r⟩
    simp only [splitOnChar, hSA] at ih
    by_cases hc : c = sep
    · subst hc
      simp only [splitOnChar, splitOnCharA_cons_sep, hSA]
      rw [joinSep_cons2]
      simpa using ih
    · simp only [splitOnChar, splitOnCharA_cons_ne hc, hSA]
      cases r with
      | nil =>
        rw [joinSep_single] at ih ⊢
        rw [ih]
      | cons x xs =>
        rw [joinSep_cons2] at ih ⊢
        rw [List.cons_append, ih]

theorem splitOnChar_parts_no_sep (sep : Char) (l : List Char) :
    ∀ p ∈ splitOnChar sep l, sep ∉ p := by
  induction l with
  | nil =>
    intro p hp
    simp only [splitOnChar, splitOnCharA, List.mem_singleton] at hp
    subst hp; simp
  | cons c t ih =>
    intro p hp
    rcases hSA : splitOnCharA sep t with ⟨h, r⟩
    simp only [splitOnChar, hSA] at ih
    by_cases hc : c = sep
    · subst hc
      simp only [splitOnChar, splitOnCharA_cons_sep, hSA] at hp
      rcases List.mem_cons.mp hp with rfl | hp2
      · simp
      · exact ih p hp2
    · simp only [splitOnChar, splitOnCharA_cons_ne hc, hSA] at hp
      rcases List.mem_cons.mp hp with rfl | hp2
      · intro hmem
        rcases List.mem_cons.mp hmem with he | hmem2
        · exact hc he.symm
        · exact ih h (List.mem_cons_self h r) hmem2
      · exact ih p (List.mem_cons_of_mem h hp2)

theorem splitOnChar_of_not_mem {sep : Char} {l : List Char} (h : sep ∉ l) :
    splitOnChar sep l = [l] := by
  induction l with
  | nil => rfl
  | cons c t ih =>
    have hc : ¬c = sep := fun he => h (he ▸ List.mem_cons_self c t)
    have ht : sep ∉ t := fun hm => h (List.mem_cons_of_mem c hm)
    have iht := ih ht
    rcases hSA : splitOnCharA sep t with ⟨hh, r⟩
    simp only [splitOnChar, hSA] at iht
    rcases List.cons_eq_cons.mp iht with ⟨i1, i2⟩
    simp only [splitOnChar, splitOnCharA_cons_ne hc, hSA]
    rw [i1, i2]

theorem splitOnChar_append {sep : Char} {a : List Char} (b : List Char)
    (h : sep ∉ a) : splitOnChar sep (a ++ sep :: b) = a :: splitOnChar sep b := by
  induction a with
  | nil =>
    simp only [List.nil_append]
    exact splitOnChar_cons_sep sep b
  | cons c t ih =>
    have hc : ¬c = sep := fun he => h (he ▸ List.mem_cons_self c t)
    have ht : sep ∉ t := fun hm => h (List.mem_cons_of_mem c hm)
    have iht := ih ht
    rcases hSA : splitOnCharA sep (t ++ sep :: b) with ⟨hh, r⟩
    simp only [splitOnChar, hSA] at iht
    rcases List.cons_eq_cons.mp iht with ⟨i1, i2⟩
    rw [List.cons_append]
    simp only [splitOnChar, splitOnCharA_cons_ne hc, hSA]
    rw [i1, i2]

theorem splitOnChar_joinSep {sep : Char} {parts : List (List Char)}
    (hne : parts ≠ []) (h : ∀ p ∈ parts, sep ∉ p) :
    splitOnChar sep (joinSep sep parts) = parts := by
  induction parts with
  | nil => exact absurd rfl hne
  | cons p r ih =>
    cases r with
    | nil =>
      rw [joinSep_single]
      exact splitOnChar_of_not_mem (h p (List.mem_cons_self p []))
    | cons q rr =>
      rw [joinSep_cons2]
      rw [splitOnChar_append _ (h p (List.mem_cons_self _ _))]
      rw [ih (by simp) fun x hx => h x (List.mem_cons_of_mem p hx)]

theorem mem_joinSep {sep : Char} {parts : List (List Char)} {ch : Char}
    (h : ch ∈ joinSep sep parts) : ch = sep ∨ ∃ p ∈ parts, ch ∈ p := by
  induction parts with
  | nil => simp [joinSep_nil] at h
  | cons p r ih =>
    cases r with
    | nil =>
      rw [joinSep_single] at h
      exact Or.inr ⟨p, List.mem_cons_self p [], h⟩
    | cons q rr =>
      rw [joinSep_cons2] at h
      rcases List.mem_append.mp h with hp | hrest
      · exact Or.inr ⟨p, List.mem_cons_self _ _, hp⟩
      · rcases List.mem_cons.mp hrest with rfl | h2
        · exact Or.inl rfl
        · rcases ih h2 with hs | ⟨x, hx, hchx⟩
          · exact Or.inl hs
          · exact Or.inr ⟨x, List.mem_cons_of_mem p hx, hchx⟩

theorem splitFirst_cons_sep (sep : Char) (t : List Char) :
    splitFirst sep (sep :: t) = ([], some t) := by
  simp [splitFirst]

theorem splitFirst_cons_ne {sep c : Char} (hc : ¬c = sep) (t : List Char) :
    splitFirst sep (c :: t) =
      (c :: (splitFirst sep t).1, (splitFirst sep t).2) := by
  simp [splitFirst, if_neg hc]

theorem splitFirst_eq_none {sep : Char} {l a : List Char}
    (h : splitFirst sep l = (a, none)) : l = a ∧ sep ∉ a := by
  induction l generalizing a with
  | nil =>
    rcases Prod.mk.injEq .. ▸ h with ⟨h1, h2⟩
    exact ⟨h1, by rw [← h1]; simp⟩
  | cons c t ih =>
    by_cases hc : c = sep
    · subst hc
      rw [splitFirst_cons_sep] at h
      rcases Prod.mk.injEq .. ▸ h with ⟨h1, h2⟩
      exact absurd h2 (by simp)
    · rw [splitFirst_cons_ne hc] at h
      rcases hSF : splitFirst sep t with ⟨a1, o1⟩
      rw [hSF] at h
      rcases Prod.mk.injEq .. ▸ h with ⟨h1, h2⟩
      subst h2
      rcases ih hSF with ⟨g1, g2⟩
      constructor
      · rw [← h1, ← g1]
      · rw [← h1]
        intro hm
        rcases List.mem_cons.mp hm with he | hm2
        · exact hc he.symm
        · exact g2 hm2

theorem splitFirst_eq_some {sep : Char} {l a b : List Char}
    (h : splitFirst sep l = (a, some b)) : l = a ++ sep :: b ∧ sep ∉ a := by
  induction l generalizing a with
  | nil =>
    rcases Prod.mk.injEq .. ▸ h with ⟨h1, h2⟩
    exact absurd h2 (by simp)
  | cons c t ih =>
    by_cases hc : c = sep
    · subst hc
      rw [splitFirst_cons_sep] at h
      rcases Prod.mk.injEq .. ▸ h with ⟨h1, h2⟩
      rcases Option.some.injEq .. ▸ h2 with h3
      rw [← h1, ← h3]
      exact ⟨rfl, by simp⟩
    · rw [splitFirst_cons_ne hc] at h
      rcases hSF : splitFirst sep t with ⟨a1, o1⟩
      rw [hSF] at h
      rcases Prod.mk.injEq .. ▸ h with ⟨h1, h2⟩
      subst h2
      rcases ih hSF with ⟨g1, g2⟩
      constructor
      · rw [← h1, List.cons_append, ← g1]
      · rw [← h1]
        intro hm
        rcases List.mem_cons.mp hm with he | hm2
        · exact hc he.symm
        · exact g2 hm2

theorem splitFirst_not_mem {sep : Char} {a : List Char} (h : sep ∉ a) :
    splitFirst sep a = (a, none) := by
  induction a with
  | nil => rfl
  | cons c t ih =>
    have hc : ¬c = sep := fun he => h (he ▸ List.mem_cons_self c t)
    have ht : sep ∉ t := fun hm => h (List.mem_cons_of_mem c hm)
    rw [splitFirst_cons_ne hc, ih ht]

theorem splitFirst_append_sep {sep : Char} {a : List Char} (b : List Char)
    (h : sep ∉ a) : splitFirst sep (a ++ sep :: b) = (a, some b) := by
  induction a with
  | nil =>
    rw [List.nil_append]
    exact splitFirst_cons_sep sep b
  | cons c t ih =>
    have hc : ¬c = sep := fun he => h (he ▸ List.mem_cons_self c t)
    have ht : sep ∉ t := fun hm => h (List.mem_cons_of_mem c hm)
    rw [List.cons_append, splitFirst_cons_ne hc, ih ht]

/-! ## Character class facts -/

theorem ws_not_identCh {ch : Char} (h : isWsChar ch = true) : isIdentCh ch = false := by
  simp only [isWsChar, Bool.or_eq_true, decide_eq_true_eq] at h
  rcases h with ((((h | h) | h) | h) | h) | h <;> subst h <;> decide

theorem identCh_not_ws {ch : Char} (h : isIdentCh ch = true) : isWsChar ch = false := by
  cases hw : isWsChar ch
  · rfl
  · rw [ws_not_identCh hw] at h
    exact absurd h (by simp)

theorem identCh_ne_plus {ch : Char} (h : isIdentCh ch = true) : ch ≠ '+' := by
  intro he
  subst he
  exact absurd h (by decide)

theorem digit_identCh {ch : Char} (h : isDigitCh ch = true) : isIdentCh ch = true := by
  simp [isIdentCh, h]

/-! ## Inversion and rendering facts for the version parser -/

theorem classifyId_render {x : List Char} {i : PreId} (h : classifyId x = some i) :
    renderPreId i = x := by
  unfold classifyId at h
  split at h
  · exact absurd h (by simp)
  · split at h
    · exact absurd h (by simp)
    · split at h
      · split at h
        · exact absurd h (by simp)
        · rcases Option.some.injEq .. ▸ h with h2
          rw [← h2]
          rfl
      · rcases Option.some.injEq .. ▸ h with h2
        rw [← h2]
        rfl

theorem classifyId_chars {x : List Char} {i : PreId} (h : classifyId x = some i) :
    x.all isIdentCh = true ∧ x ≠ [] := by
  unfold classifyId at h
  split at h
  case isTrue => exact absurd h (by simp)
  case isFalse h1 =>
  split at h
  case isTrue => exact absurd h (by simp)
  case isFalse h2 =>
  refine ⟨by simpa using h2, by simpa using h1⟩

theorem mapM_classify_render {parts : List (List Char)} {ids : List PreId}
    (h : parts.mapM classifyId = some ids) : ids.map renderPreId = parts := by
  induction parts generalizing ids with
  | nil =>
    simp only [List.mapM_nil, pure, Option.some.injEq] at h
    rw [← h]
    rfl
  | cons x xs ih =>
    rw [List.mapM_cons] at h
    cases hci : classifyId x with
    | none => rw [hci] at h; simp at h
    | some i =>
      rw [hci] at h
      cases hmi : xs.mapM classifyId with
      | none => rw [hmi] at h; simp at h
      | some is =>
        rw [hmi] at h
        injection h with h3
        rw [← h3]
        simp only [List.map_cons, classifyId_render hci, ih hmi]

theorem mapM_classify_mem {parts : List (List Char)} {ids : List PreId}
    (h : parts.mapM classifyId = some ids) :
    ∀ p ∈ parts, ∃ i, classifyId p = some i := by
  induction parts generalizing ids with
  | nil => intro p hp; simp at hp
  | cons x xs ih =>
    rw [List.mapM_cons] at h
    cases hci : classifyId x with
    | none => rw [hci] at h; simp at h
    | some i =>
      rw [hci] at h
      cases hmi : xs.mapM classifyId with
      | none => rw [hmi] at h; simp at h
      | some is =>
        intro p hp
        rcases List.mem_cons.mp hp with rfl | hp2
        · exact ⟨i, hci⟩
        · exact ih hmi p hp2

theorem parseMain_inv {m : List Char} {t : List Char × List Char × List Char}
    (h : parseMain m = some t) :
    splitOnChar '.' m = [t.1, t.2.1, t.2.2]
    ∧ isNumCore t.1 = true ∧ isNumCore t.2.1 = true ∧ isNumCore t.2.2 = true
    ∧ digitsToNat t.1 ≤ maxSafeInt ∧ digitsToNat t.2.1 ≤ maxSafeInt
    ∧ digitsToNat t.2.2 ≤ maxSafeInt := by
  unfold parseMain at h
  rcases hsp : splitOnChar '.' m with _ | ⟨a, _ | ⟨b, _ | ⟨c, _ | _⟩⟩⟩ <;>
    rw [hsp] at h
  · exact Option.noConfusion h
  · exact Option.noConfusion h
  · exact Option.noConfusion h
  · have h2 : (if (isNumCore a && isNumCore b && isNumCore c
        && decide (digitsToNat a ≤ maxSafeInt) && decide (digitsToNat b ≤ maxSafeInt)
        && decide (digitsToNat c ≤ maxSafeInt)) = true
        then some (a, b, c) else none) = some t := h
    split at h2
    case isFalse => exact Option.noConfusion h2
    case isTrue hg =>
    rcases Option.some.injEq .. ▸ h2 with h3
    subst h3
    simp only [Bool.and_eq_true, decide_eq_true_eq] at hg
    exact ⟨rfl, hg.1.1.1.1.1, hg.1.1.1.1.2, hg.1.1.1.2, hg.1.1.2, hg.1.2, hg.2⟩
  · exact Option.noConfusion h

theorem numCore_chars {x : List Char} (h : isNumCore x = true) :
    ∀ ch ∈ x, isIdentCh ch = true := by
  intro ch hch
  simp only [isNumCore, Bool.and_eq_true, List.all_eq_true] at h
  exact digit_identCh (h.1.2 ch hch)

theorem numCore_no_dot {x : List Char} (h : isNumCore x = true) : '.' ∉ x := by
  intro hm
  have := numCore_chars h '.' hm
  exact absurd this (by decide)

theorem identAll_no_dot {x : List Char} (h : x.all isIdentCh = true) : '.' ∉ x := by
  intro hm
  have := List.all_eq_true.mp h '.' hm
  exact absurd this (by decide)

theorem parseMainPre_render {core : List Char} {v : SemVer}
    (h : parseMainPre core = some v) :
    renderV v = core ∧ ∀ ch ∈ core, isIdentCh ch = true ∨ ch = '.' := by
  unfold parseMainPre at h
  rcases hsf : splitFirst '-' core with ⟨m, op⟩
  rw [hsf] at h
  cases op with
  | none =>
    have h1 : Option.map (fun t => (⟨t.1, t.2.1, t.2.2, []⟩ : SemVer)) (parseMain m)
        = some v := h
    cases hm : parseMain m with
    | none => rw [hm] at h1; exact Option.noConfusion h1
    | some t =>
      rw [hm] at h1
      injection h1 with h2
      subst h2
      rcases splitFirst_eq_none hsf with ⟨hcm, hnm⟩
      subst hcm
      rcases parseMain_inv hm with ⟨hsp, hna, hnb, hnc, _, _, _⟩
      have jm := joinSep_splitOnChar '.' core
      rw [hsp] at jm
      constructor
      · show renderV ⟨t.1, t.2.1, t.2.2, []⟩ = core
        rw [← jm, joinSep_cons2, joinSep_cons2, joinSep_single]
        simp [renderV]
      · intro ch hch
        rw [← jm] at hch
        rcases mem_joinSep hch with hs | ⟨p, hp, hchp⟩
        · exact Or.inr hs
        · simp only [List.mem_cons, List.not_mem_nil, or_false] at hp
          rcases hp with rfl | rfl | rfl
          · exact Or.inl (numCore_chars hna ch hchp)
          · exact Or.inl (numCore_chars hnb ch hchp)
          · exact Or.inl (numCore_chars hnc ch hchp)
  | some p =>
    have h1 : (match parseMain m, parsePre p with
        | some t, some ids => some (⟨t.1, t.2.1, t.2.2, ids⟩ : SemVer)
        | _, _ => none) = some v := h
    cases hm : parseMain m with
    | none => rw [hm] at h1; exact Option.noConfusion h1
    | some t =>
      rw [hm] at h1
      cases hpp : parsePre p with
      | none => rw [hpp] at h1; exact Option.noConfusion h1
      | some ids =>
        rw [hpp] at h1
        injection h1 with h2
        subst h2
        rcases splitFirst_eq_some hsf with ⟨hcm, hnm⟩
        rcases parseMain_inv hm with ⟨hsp, hna, hnb, hnc, _, _, _⟩
        have jm := joinSep_splitOnChar '.' m
        rw [hsp] at jm
        unfold parsePre at hpp
        have hmapr := mapM_classify_render hpp
        have hmem := mapM_classify_mem hpp
        have jp := joinSep_splitOnChar '.' p
        have hne : ids ≠ [] := by
          intro hid
          rw [hid] at hmapr
          have h0 : splitOnChar '.' p = [] := hmapr.symm
          simp [splitOnChar] at h0
        have hie : ids.isEmpty = false := by
          cases ids with
          | nil => exact absurd rfl hne
          | cons i it => rfl
        constructor
        · show renderV ⟨t.1, t.2.1, t.2.2, ids⟩ = core
          rw [hcm]
          simp only [renderV, hie, Bool.false_eq_true, if_false]
          rw [hmapr, jp]
          rw [← jm, joinSep_cons2, joinSep_cons2, joinSep_single]
          simp [List.append_assoc]
        · intro ch hch
          rw [hcm] at hch
          rcases List.mem_append.mp hch with hchm | hchp
          · rw [← jm] at hchm
            rcases mem_joinSep hchm with hs | ⟨q, hq, hchq⟩
            · exact Or.inr hs
            · simp only [List.mem_cons, List.not_mem_nil, or_false] at hq
              rcases hq with rfl | rfl | rfl
              · exact Or.inl (numCore_chars hna ch hchq)
              · exact Or.inl (numCore_chars hnb ch hchq)
              · exact Or.inl (numCore_chars hnc ch hchq)
          · rcases List.mem_cons.mp hchp with rfl | hchp2
            · exact Or.inl (by decide)
            · rw [← jp] at hchp2
              rcases mem_joinSep hchp2 with hs | ⟨q, hq, hchq⟩
              · exact Or.inr hs
              · rcases hmem q hq with ⟨i, hci⟩
                exact Or.inl (List.all_eq_true.mp (classifyId_chars hci).1 ch hchq)

theorem dropWhile_of_forall_false {p : Char → Bool} {l : List Char}
    (h : ∀ ch ∈ l, p ch = false) : l.dropWhile p = l := by
  cases l with
  | nil => rfl
  | cons c t =>
    rw [List.dropWhile_cons, h c (List.mem_cons_self c t)]
    simp

theorem trimChars_of_no_ws {l : List Char} (h : ∀ ch ∈ l, isWsChar ch = false) :
    trimChars l = l := by
  unfold trimChars
  rw [dropWhile_of_forall_false h]
  rw [dropWhile_of_forall_false fun ch hch => h ch (List.mem_reverse.mp hch)]
  exact List.reverse_reverse l

theorem parseCore_render {t0 : List Char} {v : SemVer} (h : parseCore t0 = some v) :
    parseCore (renderV v) = some v
    ∧ ∀ ch ∈ renderV v, isIdentCh ch = true ∨ ch = '.' := by
  unfold parseCore at h
  by_cases hlen : t0.length > 256
  · rw [if_pos hlen] at h; exact Option.noConfusion h
  · rw [if_neg hlen] at h
    rcases hsp : splitOnChar '+' t0 with _ | ⟨core, _ | ⟨build, _ | _⟩⟩ <;> rw [hsp] at h
    · exact Option.noConfusion h
    · have h1 : parseMainPre core = some v := h
      rcases parseMainPre_render h1 with ⟨hr, hch⟩
      have jt := joinSep_splitOnChar '+' t0
      rw [hsp, joinSep_single] at jt
      have hplus : '+' ∉ core := by
        intro hm
        rcases hch '+' hm with hi | hd
        · exact identCh_ne_plus hi rfl
        · exact absurd hd (by decide)
      constructor
      · rw [hr]
        unfold parseCore
        rw [if_neg (by rw [jt]; exact hlen)]
        rw [splitOnChar_of_not_mem hplus]
        exact h1
      · rw [hr]; exact hch
    · have h1 : (if (splitOnChar '.' build).all validBuildPart = true
          then parseMainPre core else none) = some v := h
      split at h1
      next hb =>
        rcases parseMainPre_render h1 with ⟨hr, hch⟩
        have jt := joinSep_splitOnChar '+' t0
        rw [hsp, joinSep_cons2, joinSep_single] at jt
        have hlen2 : ¬core.length > 256 := by
          have he : (core ++ '+' :: build).length = t0.length := by rw [jt]
          rw [List.length_append, List.length_cons] at he
          omega
        have hplus : '+' ∉ core := by
          intro hm
          rcases hch '+' hm with hi | hd
          · exact identCh_ne_plus hi rfl
          · exact absurd hd (by decide)
        constructor
        · rw [hr]
          unfold parseCore
          rw [if_neg hlen2]
          rw [splitOnChar_of_not_mem hplus]
          exact h1
        · rw [hr]; exact hch
      next hb => exact Option.noConfusion h1
    · exact Option.noConfusion h

theorem semverParseChars_render {l : List Char} {v : SemVer}
    (h : semverParseChars l = some v) : semverParseChars (renderV v) = some v := by
  unfold semverParseChars at h ⊢
  rcases parseCore_render h with ⟨hp, hch⟩
  have hws : ∀ ch ∈ renderV v, isWsChar ch = false := by
    intro ch hchm
    rcases hch ch hchm with hi | hd
    · exact identCh_not_ws hi
    · subst hd; decide
  rw [trimChars_of_no_ws hws]
  exact hp

/-- The node-semver invariant behind the VersionRangeInfo record: whatever
clean returns re-validates, so clean and valid are some together. -/
theorem semverClean_validOpt {s r : String} (h : semverClean s = some r) :
    semverValidOpt (some r) = some r := by
  unfold semverClean at h
  cases hc : semverCleanChars s.data with
  | none => rw [hc] at h; exact Option.noConfusion h
  | some l =>
    rw [hc] at h
    injection h with h2
    subst h2
    unfold semverCleanChars at hc
    cases hp : semverParseChars ((trimChars s.data).dropWhile isEqVCh) with
    | none => rw [hp] at hc; exact Option.noConfusion hc
    | some v0 =>
      rw [hp] at hc
      injection hc with hc2
      subst hc2
      show Option.map (fun v => String.mk (renderV v)) (semverParseChars (renderV v0))
        = some (String.mk (renderV v0))
      rw [semverParseChars_render hp]
      rfl

theorem semverParse_empty : semverParse "" = none := rfl

theorem semverParse_ne_empty {s : String} {v : SemVer}
    (h : semverParse s = some v) : ¬s = "" := by
  intro he
  subst he
  rw [semverParse_empty] at h
  exact Option.noConfusion h

/-- Shared characterisation of both getUpdateType copies on two parsed
version strings. -/
theorem getUpdateType_parsed {a b : String} {va vb : SemVer}
    (ha : semverParse a = some va) (hb : semverParse b = some vb) :
    UpdateCmd.getUpdateType (some a) (some b) =
      (if vb.majorN > va.majorN then "major"
       else if vb.minorN > va.minorN then "minor"
       else if vb.patchN > va.patchN then "patch"
       else "none") := by
  have hae : ¬a = "" := semverParse_ne_empty ha
  have hbe : ¬b = "" := semverParse_ne_empty hb
  simp only [UpdateCmd.getUpdateType]
  have hcond : ¬((decide (a = "") || decide (b = "")) = true) := by simp [hae, hbe]
  rw [if_neg hcond]
  rw [ha, hb]

/-! ## Generic list lemmas for the report and audit theorems -/

theorem length_filter_not_add_filter {α : Type} (p : α → Bool) (l : List α) :
    (l.filter fun x => !p x).length + (l.filter p).length = l.length := by
  induction l with
  | nil => rfl
  | cons a t ih =>
    cases hp : p a <;> simp only [List.filter_cons, hp] <;> simp <;> omega

theorem count_filter_eq {α : Type} [DecidableEq α] (p : α → Bool) (l : List α)
    (a : α) : (l.filter p).count a = if p a then l.count a else 0 := by
  induction l with
  | nil => simp
  | cons b t ih =>
    by_cases hb : b = a
    · subst hb
      cases hp : p b <;> simp [List.filter_cons, hp, List.count_cons, ih]
    · cases hp : p b <;> simp [List.filter_cons, hp, List.count_cons, ih, hb]

theorem pairwise_filterMap_of_pairwise {α β : Type} {R : α → α → Prop}
    {S : β → β → Prop} {f : α → Option β} {l : List α}
    (hf : ∀ a b, R a b → ∀ x, f a = some x → ∀ y, f b = some y → S x y)
    (hp : l.Pairwise R) : (l.filterMap f).Pairwise S := by
  induction l with
  | nil => simp
  | cons a t ih =>
    rcases List.pairwise_cons.mp hp with ⟨ha, ht⟩
    cases hfa : f a with
    | none => rw [List.filterMap_cons, hfa]; exact ih ht
    | some x =>
      rw [List.filterMap_cons, hfa]
      refine List.pairwise_cons.mpr ⟨?_, ih ht⟩
      intro y hy
      rcases List.mem_filterMap.mp hy with ⟨b, hbl, hfb⟩
      exact hf a b (ha b hbl) x hfa y hfb

/-! ## JavaScript Map lemmas for the extractor theorem -/

theorem find?_append_left {α : Type} {p : α → Bool} {l1 l2 : List α} {x : α}
    (h : l1.find? p = some x) : (l1 ++ l2).find? p = some x := by
  induction l1 with
  | nil => simp [List.find?] at h
  | cons a t ih =>
    cases hp : p a
    · rw [List.find?_cons_of_neg _ (by simp [hp])] at h
      rw [List.cons_append, List.find?_cons_of_neg _ (by simp [hp])]
      exact ih h
    · rw [List.find?_cons_of_pos _ hp] at h
      rw [List.cons_append, List.find?_cons_of_pos _ hp]
      exact h

theorem find?_append_right {α : Type} {p : α → Bool} {l1 l2 : List α}
    (h : l1.find? p = none) : (l1 ++ l2).find? p = l2.find? p := by
  induction l1 with
  | nil => simp
  | cons a t ih =>
    cases hp : p a
    · rw [List.find?_cons_of_neg _ (by simp [hp])] at h
      rw [List.cons_append, List.find?_cons_of_neg _ (by simp [hp])]
      exact ih h
    · rw [List.find?_cons_of_pos _ hp] at h
      exact Option.noConfusion h

theorem not_any_key {m : List (String × DepRecord)} {k : String}
    (h : ¬(m.any fun p => p.1 == k) = true) : m.find? (fun p => p.1 == k) = none := by
  induction m with
  | nil => rfl
  | cons p t ih =>
    rw [List.any_cons] at h
    cases hp : p.1 == k
    · rw [List.find?_cons_of_neg _ (by simp [hp])]
      exact ih fun ha => h (by rw [ha]; simp)
    · exact absurd (by rw [hp]; simp) h

theorem find?_cons_pos {α : Type} (p : α → Bool) (a : α) (l : List α)
    (h : p a = true) : (a :: l).find? p = some a :=
  List.find?_cons_of_pos l h

theorem find?_cons_neg {α : Type} (p : α → Bool) (a : α) (l : List α)
    (h : p a = false) : (a :: l).find? p = l.find? p :=
  List.find?_cons_of_neg l (by simp [h])

theorem getMap_eq (m : List (String × DepRecord)) (k : String) :
    getMap m k = (m.find? fun p => p.1 == k).map Prod.snd := rfl

theorem find?_replace_self {m : List (String × DepRecord)} {k : String}
    (v : DepRecord) (ha : (m.any fun p => p.1 == k) = true) :
    (m.map fun p => if p.1 == k then (k, v) else p).find? (fun p => p.1 == k)
      = some (k, v) := by
  induction m with
  | nil => simp at ha
  | cons q t ih =>
    rw [List.any_cons] at ha
    rw [List.map_cons]
    cases hq : q.1 == k
    · rw [hq] at ha
      simp only [Bool.false_or] at ha
      simp only [Bool.false_eq_true, if_false]
      rw [find?_cons_neg (fun p => p.1 == k) q _ hq]
      exact ih ha
    · simp only [if_true]
      rw [find?_cons_pos (fun p => p.1 == k) (k, v) _ (by simp)]

theorem find?_replace_other {m : List (String × DepRecord)} {k k2 : String}
    (v : DepRecord) (hk : ¬k2 = k) :
    (m.map fun p => if p.1 == k then (k, v) else p).find? (fun p => p.1 == k2)
      = m.find? (fun p => p.1 == k2) := by
  induction m with
  | nil => rfl
  | cons q t ih =>
    rw [List.map_cons]
    cases hq : q.1 == k
    · simp only [Bool.false_eq_true, if_false]
      cases hq2 : q.1 == k2
      · rw [find?_cons_neg (fun p => p.1 == k2) q _ hq2,
          find?_cons_neg (fun p => p.1 == k2) q _ hq2, ih]
      · rw [find?_cons_pos (fun p => p.1 == k2) q _ hq2,
          find?_cons_pos (fun p => p.1 == k2) q _ hq2]
    · simp only [if_true]
      have hqe : q.1 = k := by simpa using hq
      have hkk2 : (k == k2) = false := by
        cases hx : k == k2
        · rfl
        · exact absurd (show k = k2 by simpa using hx) fun he => hk he.symm
      rw [find?_cons_neg (fun p => p.1 == k2) (k, v) _ hkk2]
      rw [find?_cons_neg (fun p => p.1 == k2) q _
        (by show (q.1 == k2) = false; rw [hqe]; exact hkk2)]
      exact ih

theorem getMap_mapSet (m : List (String × DepRecord)) (k k2 : String)
    (v : DepRecord) :
    getMap (mapSet m k v) k2 = if k2 = k then some v else getMap m k2 := by
  rw [getMap_eq, getMap_eq]
  unfold mapSet
  by_cases ha : (m.any fun p => p.1 == k) = true
  · rw [if_pos ha]
    by_cases hk : k2 = k
    · subst hk
      rw [if_pos rfl, find?_replace_self v ha]
      rfl
    · rw [if_neg hk, find?_replace_other v hk]
  · rw [if_neg ha]
    by_cases hk : k2 = k
    · subst hk
      rw [if_pos rfl, find?_append_right (not_any_key ha),
        find?_cons_pos (fun p => p.1 == k2) (k2, v) [] (by simp)]
      rfl
    · rw [if_neg hk]
      have hkk : ((k, v).1 == k2) = false := by
        cases hx : k == k2
        · rfl
        · exact absurd (show k = k2 by simpa using hx) fun he => hk he.symm
      cases hf : m.find? fun p => p.1 == k2 with
      | none =>
        rw [find?_append_right hf,
          find?_cons_neg (fun p => p.1 == k2) (k, v) [] hkk]
        rfl
      | some p1 => rw [find?_append_left hf]

theorem mapSet_keys_nodup {m : List (String × DepRecord)}
    (h : (m.map Prod.fst).Nodup) (k : String) (v : DepRecord) :
    ((mapSet m k v).map Prod.fst).Nodup := by
  unfold mapSet
  by_cases ha : (m.any fun p => p.1 == k) = true
  · rw [if_pos ha]
    have he : ((m.map fun p => if p.1 == k then (k, v) else p).map Prod.fst)
        = m.map Prod.fst := by
      rw [List.map_map]
      apply List.map_congr_left
      intro p hp
      cases hq : p.1 == k
      · simp [Function.comp, hq]
      · have hqe : p.1 = k := by simpa using hq
        simp [Function.comp, hq, hqe]
    rw [he]
    exact h
  · rw [if_neg ha]
    rw [List.map_append]
    rw [List.nodup_append]
    refine ⟨h, by simp, ?_⟩
    intro x hx
    simp only [List.map_cons, List.map_nil, List.mem_singleton]
    intro he
    subst he
    rcases List.mem_map.mp hx with ⟨p, hp, hpk⟩
    exact ha (List.any_eq_true.mpr ⟨p, hp, by simp [hpk]⟩)

/-! ## Foldl form of the extractor -/

/-- One extractor step on the flattened entry stream. -/
def insertEntry (acc : List (String × DepRecord)) (e : String × String × String) :
    List (String × DepRecord) :=
  mapSet acc e.2.1 (mkDepRecord e.1 e.2.1 e.2.2)

theorem extractDependencies_eq (pkg : PackageJson) :
    extractDependencies pkg = (allEntries pkg).foldl insertEntry [] := by
  have hsec : ∀ (ty : String) (sec : List (String × String))
      (m : List (String × DepRecord)),
      sec.foldl (fun m2 e => mapSet m2 e.1 (mkDepRecord ty e.1 e.2)) m
        = (sec.map fun e => (ty, e.1, e.2)).foldl insertEntry m := by
    intro ty sec
    induction sec with
    | nil => intro m; rfl
    | cons e t ih =>
      intro m
      rw [List.foldl_cons, List.map_cons, List.foldl_cons]
      exact ih _
  simp only [extractDependencies, allEntries, sectionsOf, List.foldl_cons,
    List.foldl_nil, List.flatMap_cons, List.flatMap_nil, List.append_nil,
    List.foldl_append]
  rw [hsec, hsec, hsec, hsec]

theorem getMap_foldl (entries : List (String × String × String))
    (m : List (String × DepRecord)) (k : String) :
    getMap (entries.foldl insertEntry m) k
      = match entries.reverse.find? (fun e => e.2.1 == k) with
        | some e => some (mkDepRecord e.1 e.2.1 e.2.2)
        | none => getMap m k := by
  induction entries generalizing m with
  | nil => simp
  | cons e t ih =>
    rw [List.foldl_cons, ih, List.reverse_cons]
    cases hf : t.reverse.find? fun e2 => e2.2.1 == k with
    | some e2 => rw [find?_append_left hf]
    | none =>
      rw [find?_append_right hf]
      show getMap (mapSet m e.2.1 (mkDepRecord e.1 e.2.1 e.2.2)) k = _
      rw [getMap_mapSet]
      cases he : e.2.1 == k with
      | true =>
        have hee : e.2.1 = k := by simpa using he
        rw [if_pos hee.symm]
        rw [find?_cons_pos (fun e2 => e2.2.1 == k) e [] he]
      | false =>
        have hne : ¬k = e.2.1 := by
          intro hc
          rw [hc] at he
          simp at he
        rw [if_neg hne]
        rw [find?_cons_neg (fun e2 => e2.2.1 == k) e [] he]
        rfl

theorem keys_nodup_foldl (entries : List (String × String × String))
    (m : List (String × DepRecord)) (h : (m.map Prod.fst).Nodup) :
    (((entries.foldl insertEntry m)).map Prod.fst).Nodup := by
  induction entries generalizing m with
  | nil => exact h
  | cons e t ih =>
    rw [List.foldl_cons]
    exact ih _ (mapSet_keys_nodup h _ _)

/-! ## Facts about the update recommender -/

theorem generateRecommendations_eq (avail : List UpdateCmd.UpdateCandidate)
    (im : Bool) :
    UpdateCmd.generateRecommendations avail im =
      if avail.isEmpty then ([] : List UpdateCmd.Recommendation)
      else
        ((avail.filter fun u => u.type == "patch").head?.map fun p =>
          (⟨"patch", p.version, "high", "Safe bug fixes and improvements",
            false⟩ : UpdateCmd.Recommendation)).toList
        ++ ((avail.filter fun u => u.type == "minor").head?.map fun p =>
          (⟨"minor", p.version, "medium", "New features and improvements",
            false⟩ : UpdateCmd.Recommendation)).toList
        ++ (if im then
            ((avail.filter fun u => u.type == "major").head?.map fun p =>
              (⟨"major", p.version, "low",
                "Major version with potential breaking changes",
                true⟩ : UpdateCmd.Recommendation)).toList
           else []) := by
  unfold UpdateCmd.generateRecommendations
  by_cases he : avail.isEmpty = true
  · rw [if_pos he, if_pos he]
  · rw [if_neg he, if_neg he]
    cases hp : avail.filter (fun u => u.type == "patch") <;>
      cases hm : avail.filter (fun u => u.type == "minor") <;>
        cases hj : avail.filter (fun u => u.type == "major") <;>
          cases im <;> rfl

theorem candOf_some {cv : String} {im : Bool} {p : String × SemVer}
    {x : UpdateCmd.UpdateCandidate} (h : UpdateCmd.candOf cv im p = some x) :
    x = ⟨p.1, UpdateCmd.getUpdateType (some cv) (some p.1),
         UpdateCmd.getUpdateType (some cv) (some p.1) == "major", p.2⟩
    ∧ semverGtStr p.1 cv = true := by
  unfold UpdateCmd.candOf at h
  split at h
  next hg => exact Option.noConfusion h
  next hg =>
  have h2 : (if (UpdateCmd.getUpdateType (some cv) (some p.1) == "major"
      && !im) = true then none
      else some (⟨p.1, UpdateCmd.getUpdateType (some cv) (some p.1),
        UpdateCmd.getUpdateType (some cv) (some p.1) == "major",
        p.2⟩ : UpdateCmd.UpdateCandidate)) = some x := h
  split at h2
  next hmaj => exact Option.noConfusion h2
  next hmaj =>
  refine ⟨(Option.some.injEq .. ▸ h2).symm, by simpa using hg⟩

theorem analyze_pairwise (currentRange : VersionRangeInfo)
    (allVersions : List String) (includeMajor : Bool) :
    (UpdateCmd.analyzeAvailableUpdates currentRange allVersions
      includeMajor).Pairwise fun u u2 => svCmp u.sv u2.sv ≠ .lt := by
  unfold UpdateCmd.analyzeAvailableUpdates
  cases currentRange.clean with
  | none => simp
  | some cv =>
    refine pairwise_filterMap_of_pairwise ?_
      (sortDesc_pairwise (cmpLaws_comap svCmp_laws Prod.snd) _)
    intro a b hR x hx y hy
    rcases candOf_some hx with ⟨hxe, _⟩
    rcases candOf_some hy with ⟨hye, _⟩
    rw [hxe, hye]
    exact hR

theorem filter_head_max {avail : List UpdateCmd.UpdateCandidate}
    (hpw : avail.Pairwise fun u u2 => svCmp u.sv u2.sv ≠ .lt)
    (pt : UpdateCmd.UpdateCandidate → Bool) {p : UpdateCmd.UpdateCandidate}
    {rest : List UpdateCmd.UpdateCandidate}
    (hf : avail.filter pt = p :: rest) :
    p ∈ avail ∧ pt p = true
    ∧ ∀ u ∈ avail, pt u = true → (svCmp u.sv p.sv).isLE = true := by
  have hsub : List.Sublist (avail.filter pt) avail := List.filter_sublist avail
  have hpwf : (avail.filter pt).Pairwise fun u u2 => svCmp u.sv u2.sv ≠ .lt :=
    hpw.sublist hsub
  have hpmem : p ∈ avail.filter pt := by rw [hf]; exact List.mem_cons_self p rest
  rcases List.mem_filter.mp hpmem with ⟨hpm, hppt⟩
  refine ⟨hpm, hppt, ?_⟩
  intro u hu hptu
  have hum : u ∈ p :: rest := by
    rw [← hf]
    exact List.mem_filter.mpr ⟨hu, hptu⟩
  rw [hf] at hpwf
  exact pairwise_head_max (cmpLaws_comap svCmp_laws fun u => u.sv) hpwf u hum

/-! ## Facts about the audit classifier -/

/-- Severity rank in the order low < moderate < high < critical, with
unranked severities below every ranked one. -/
def severityRank (s : String) : Int :=
  if s = "critical" then 3
  else if s = "high" then 2
  else if s = "moderate" then 1
  else if s = "low" then 0
  else -1

theorem jsIndexOf_levels (s : String) :
    AuditCmd.jsIndexOf AuditCmd.severityLevels s = severityRank s := by
  by_cases h1 : s = "low"
  · subst h1; decide
  by_cases h2 : s = "moderate"
  · subst h2; decide
  by_cases h3 : s = "high"
  · subst h3; decide
  by_cases h4 : s = "critical"
  · subst h4; decide
  have g1 : ¬"low" = s := fun he => h1 he.symm
  have g2 : ¬"moderate" = s := fun he => h2 he.symm
  have g3 : ¬"high" = s := fun he => h3 he.symm
  have g4 : ¬"critical" = s := fun he => h4 he.symm
  simp [AuditCmd.jsIndexOf, AuditCmd.severityLevels, severityRank, g1, g2, g3,
    g4, h1, h2, h3, h4]

theorem jsToLower_levels {s : String} (h : s ∈ AuditCmd.severityLevels) :
    AuditCmd.jsToLower s = s := by
  simp only [AuditCmd.severityLevels, List.mem_cons, List.not_mem_nil,
    or_false] at h
  rcases h with rfl | rfl | rfl | rfl <;> decide

theorem cmpLaws_flip {α : Type} {c : α → α → Ordering} (h : CmpLaws c) :
    CmpLaws fun a b => c b a where
  swap a b := h.swap b a
  ltTrans a b d h1 h2 := h.ltTrans d b a h2 h1
  eqSubst a b d h0 := by
    have hab : c a b = .eq := by
      rw [h.swap a b, h0]
      rfl
    exact h.eqSubstR a b d hab

/-! ## The claims -/

/-- C1: for every pair of version strings, getUpdateType of the update
command returns unknown when either string fails strict semantic-version
parsing, otherwise major when the candidate major exceeds the current
major, else minor when the candidate minor exceeds, else patch when the
candidate patch exceeds, else none. -/
theorem c1_update_classifier (cur cand : String) :
    UpdateCmd.getUpdateType (some cur) (some cand) =
      match semverParse cur, semverParse cand with
      | some c, some l =>
        if l.majorN > c.majorN then "major"
        else if l.minorN > c.minorN then "minor"
        else if l.patchN > c.patchN then "patch"
        else "none"
      | _, _ => "unknown" := by
  by_cases he : cur = ""
  · subst he
    cases hl : semverParse cand <;>
      simp [UpdateCmd.getUpdateType, hl, show semverParse "" = none from rfl]
  · by_cases hce : cand = ""
    · subst hce
      cases hc : semverParse cur <;>
        simp [UpdateCmd.getUpdateType, hc, show semverParse "" = none from rfl]
    · cases hc : semverParse cur with
      | none => simp [UpdateCmd.getUpdateType, hc, he, hce]
      | some c =>
        cases hl : semverParse cand with
        | none => simp [UpdateCmd.getUpdateType, hc, hl, he, hce]
        | some l =>
          rw [getUpdateType_parsed hc hl]

/-- C7: the getUpdateType of the update command and the getUpdateType of
the check command are extensionally equal. -/
theorem c7_classifier_consistency (currentVersion newVersion : Option String) :
    UpdateCmd.getUpdateType currentVersion newVersion
      = CheckCmd.getUpdateType currentVersion newVersion := rfl

/-- C6 counterexample: antisymmetry fails as stated, since the classifier
compares components independently: 1.5.0 against 2.0.0 is a major update
while the reversed direction reports minor rather than the non-update
result none. -/
theorem c6_antisymmetry_counterexample :
    UpdateCmd.getUpdateType (some "1.5.0") (some "2.0.0") = "major"
    ∧ UpdateCmd.getUpdateType (some "2.0.0") (some "1.5.0") = "minor"
    ∧ ¬UpdateCmd.getUpdateType (some "2.0.0") (some "1.5.0") = "none" :=
  ⟨rfl, rfl, by decide⟩

/-- C6 amended: for parsed versions, classify is none exactly when no
candidate component strictly exceeds the current one; both directions are
none exactly when all three components agree; and antisymmetry does hold
for componentwise comparable pairs: when the candidate dominates the
current version componentwise and they differ, the forward direction is an
update bucket and the reverse direction is none.  For componentwise
incomparable pairs both directions can be buckets, as the counterexample
shows. -/
theorem c6_antisymmetry_amended (a b : String) (va vb : SemVer)
    (ha : semverParse a = some va) (hb : semverParse b = some vb) :
    (UpdateCmd.getUpdateType (some a) (some b) = "none"
      ↔ vb.majorN ≤ va.majorN ∧ vb.minorN ≤ va.minorN ∧ vb.patchN ≤ va.patchN)
    ∧ ((UpdateCmd.getUpdateType (some a) (some b) = "none"
        ∧ UpdateCmd.getUpdateType (some b) (some a) = "none")
      ↔ va.majorN = vb.majorN ∧ va.minorN = vb.minorN ∧ va.patchN = vb.patchN)
    ∧ ((va.majorN ≤ vb.majorN ∧ va.minorN ≤ vb.minorN ∧ va.patchN ≤ vb.patchN
        ∧ ¬(va.majorN = vb.majorN ∧ va.minorN = vb.minorN
            ∧ va.patchN = vb.patchN))
      → (UpdateCmd.getUpdateType (some a) (some b) = "major"
          ∨ UpdateCmd.getUpdateType (some a) (some b) = "minor"
          ∨ UpdateCmd.getUpdateType (some a) (some b) = "patch")
        ∧ UpdateCmd.getUpdateType (some b) (some a) = "none") := by
  rw [getUpdateType_parsed ha hb, getUpdateType_parsed hb ha]
  refine ⟨?_, ?_, ?_⟩
  · split_ifs with h1 h2 h3 <;> simp <;> omega
  · split_ifs <;> simp <;> omega
  · rintro ⟨hle1, hle2, hle3, hne⟩
    split_ifs <;> first | (exfalso; omega) | simp

/-- C6 witness: the amended statement applied to the comparable pair 1.2.3
and 1.2.4. -/
theorem c6_antisymmetry_amended_witness :
    (UpdateCmd.getUpdateType (some "1.2.3") (some "1.2.4") = "major"
      ∨ UpdateCmd.getUpdateType (some "1.2.3") (some "1.2.4") = "minor"
      ∨ UpdateCmd.getUpdateType (some "1.2.3") (some "1.2.4") = "patch")
    ∧ UpdateCmd.getUpdateType (some "1.2.4") (some "1.2.3") = "none" :=
  (c6_antisymmetry_amended "1.2.3" "1.2.4"
    ⟨['1'], ['2'], ['3'], []⟩ ⟨['1'], ['2'], ['4'], []⟩
    (by decide) (by decide)).2.2 (by decide)

/-- C3: in every VersionRangeInfo produced by parseVersionRange, isExact and
isRange are never both true; both are false exactly when the string neither
cleans to a strict exact version nor validates as a comparator range; and
the resolved exact version together with the numeric major, minor and patch
components is present exactly when isExact is true. -/
theorem c3_version_range_invariants (v : String) :
    (¬((parseVersionRange v).isExact = true
        ∧ (parseVersionRange v).isRange = true))
    ∧ (((parseVersionRange v).isExact = false
        ∧ (parseVersionRange v).isRange = false)
      ↔ semverClean v = none ∧ semverValidRange v = none)
    ∧ (((parseVersionRange v).clean.isSome = true
        ∧ (parseVersionRange v).major.isSome = true
        ∧ (parseVersionRange v).minor.isSome = true
        ∧ (parseVersionRange v).patch.isSome = true)
      ↔ (parseVersionRange v).isExact = true) := by
  cases hc : semverClean v with
  | none =>
    have h1 : (parseVersionRange v).isExact = false := by
      unfold parseVersionRange; rw [hc]; rfl
    have h2 : (parseVersionRange v).isRange = (semverValidRange v).isSome := by
      unfold parseVersionRange
      rw [hc]
      cases semverValidRange v <;> rfl
    have h3 : (parseVersionRange v).clean = none := by
      unfold parseVersionRange; rw [hc]
    have h4 : (parseVersionRange v).major = none := by
      unfold parseVersionRange; rw [hc]; rfl
    refine ⟨by simp [h1], ?_, by simp [h3, h1]⟩
    cases hr : semverValidRange v <;> simp [h1, h2, hr, hc]
  | some r =>
    have hvld := semverClean_validOpt hc
    have h1 : (parseVersionRange v).isExact = true := by
      unfold parseVersionRange
      rw [hc]
      dsimp only
      rw [hvld]
      rfl
    have h2 : (parseVersionRange v).isRange = false := by
      unfold parseVersionRange
      rw [hc]
      dsimp only
      rw [hvld]
      cases semverValidRange v <;> rfl
    have h3 : (parseVersionRange v).clean = some r := by
      unfold parseVersionRange; rw [hc]
    have h4 : (parseVersionRange v).major = some (semverMajorStr r) := by
      unfold parseVersionRange
      rw [hc]
      dsimp only
      rw [hvld]
      rfl
    have h5 : (parseVersionRange v).minor = some (semverMinorStr r) := by
      unfold parseVersionRange
      rw [hc]
      dsimp only
      rw [hvld]
      rfl
    have h6 : (parseVersionRange v).patch = some (semverPatchStr r) := by
      unfold parseVersionRange
      rw [hc]
      dsimp only
      rw [hvld]
      rfl
    refine ⟨by simp [h2], by simp [h1, hc], by simp [h1, h3, h4, h5, h6]⟩

/-- C3 witness: both flags are false on a specifier that is neither an
exact version nor a range. -/
theorem c3_version_range_invariants_witness :
    (parseVersionRange "abc").isExact = false
    ∧ (parseVersionRange "abc").isRange = false :=
  (c3_version_range_invariants "abc").2.1.mpr ⟨by decide, by decide⟩

/-- C8: parseVersionRange is a total pure function; an invalid specifier,
one that neither cleans to an exact version nor validates as a range,
yields the all-false record with absent clean, valid and numeric
components, rather than an error. -/
theorem c8_parse_never_raises (v : String)
    (h : semverClean v = none ∧ semverValidRange v = none) :
    (parseVersionRange v).isExact = false
    ∧ (parseVersionRange v).isRange = false
    ∧ (parseVersionRange v).clean = none
    ∧ (parseVersionRange v).valid = none
    ∧ (parseVersionRange v).major = none
    ∧ (parseVersionRange v).minor = none
    ∧ (parseVersionRange v).patch = none := by
  rcases h with ⟨hc, hr⟩
  unfold parseVersionRange
  rw [hc, hr]
  exact ⟨rfl, rfl, rfl, rfl, rfl, rfl, rfl⟩

/-- C8 witness: the all-false result on a concrete invalid specifier. -/
theorem c8_parse_never_raises_witness :
    (parseVersionRange "not-a-version").isExact = false
    ∧ (parseVersionRange "not-a-version").isRange = false
    ∧ (parseVersionRange "not-a-version").clean = none
    ∧ (parseVersionRange "not-a-version").valid = none
    ∧ (parseVersionRange "not-a-version").major = none
    ∧ (parseVersionRange "not-a-version").minor = none
    ∧ (parseVersionRange "not-a-version").patch = none :=
  c8_parse_never_raises "not-a-version" ⟨by decide, by decide⟩

/-- C4: the summary counters partition the total.  In the check report
upToDate plus outdated equals total; in the update report upToDate plus
hasUpdates equals total; and a dependency whose registry lookup failed has
updateAvailable false and an empty recommendation list, so the counting
predicates place it on the up-to-date side in both reports. -/
theorem c4_report_partition :
    (∀ (results : List CheckCmd.CheckResult) (pkg : PackageJson),
      (CheckCmd.generateReport results pkg).summary.upToDate
        + (CheckCmd.generateReport results pkg).summary.outdated
        = (CheckCmd.generateReport results pkg).summary.total)
    ∧ (∀ (updateResults : List UpdateCmd.UpdateResult) (pkg : PackageJson),
      (UpdateCmd.generateUpdateReport updateResults pkg).summary.upToDate
        + (UpdateCmd.generateUpdateReport updateResults pkg).summary.hasUpdates
        = (UpdateCmd.generateUpdateReport updateResults pkg).summary.total)
    ∧ (∀ (dep : DepRecord) (vulns : List CheckCmd.Finding),
      (CheckCmd.processCheckDependency dep none vulns).updateAvailable = false)
    ∧ (∀ (dep : DepRecord) (versionsLookup : Option (List String)) (im : Bool),
      (UpdateCmd.buildUpdateResult dep none versionsLookup im).recommendations
        = []) := by
  refine ⟨?_, ?_, fun dep vulns => rfl, fun dep vl im => rfl⟩
  · intro results pkg
    show (results.filter fun r => !r.updateAvailable).length
      + (results.filter fun r => r.updateAvailable).length = results.length
    exact length_filter_not_add_filter (fun r => r.updateAvailable) results
  · intro updateResults pkg
    show (updateResults.filter fun r => r.recommendations.isEmpty).length
      + (updateResults.filter fun r => !r.recommendations.isEmpty).length
      = updateResults.length
    rw [Nat.add_comm]
    exact length_filter_not_add_filter
      (fun r => r.recommendations.isEmpty) updateResults

/-- C10: in the check command, a dependency whose specifier does not
resolve to an exact version is compared against the literal baseline
0.0.0; when the lookup succeeds and the latest version is semver-greater
than 0.0.0 the result has updateAvailable true and updateType unknown, and
any report over results containing it counts at least one outdated
dependency. -/
theorem c10_unresolved_baseline (dep : DepRecord) (latest : String)
    (vulns : List CheckCmd.Finding)
    (hclean : dep.range.clean = none)
    (hgt : semverGtStr latest "0.0.0" = true) :
    (CheckCmd.processCheckDependency dep (some latest) vulns).updateAvailable
      = true
    ∧ (CheckCmd.processCheckDependency dep (some latest) vulns).updateType
      = some "unknown"
    ∧ ∀ rs : List CheckCmd.CheckResult,
        CheckCmd.processCheckDependency dep (some latest) vulns ∈ rs →
        ∀ pkg : PackageJson,
          0 < (CheckCmd.generateReport rs pkg).summary.outdated := by
  have hne : ¬latest = "" := by
    intro he
    subst he
    rw [show semverGtStr "" "0.0.0" = false from rfl] at hgt
    exact Bool.noConfusion hgt
  have hua : (CheckCmd.processCheckDependency dep (some latest)
      vulns).updateAvailable = true := by
    simp only [CheckCmd.processCheckDependency]
    rw [if_neg hne]
    show semverGtStr latest (dep.range.clean.getD "0.0.0") = true
    rw [hclean]
    exact hgt
  refine ⟨hua, ?_, ?_⟩
  · simp only [CheckCmd.processCheckDependency]
    rw [if_neg hne]
    show (if semverGtStr latest (dep.range.clean.getD "0.0.0") = true
      then some (CheckCmd.getUpdateType dep.range.clean (some latest))
      else none) = some "unknown"
    rw [hclean]
    rw [if_pos (show semverGtStr latest ((none : Option String).getD "0.0.0")
      = true from hgt)]
    rfl
  · intro rs hmem pkg
    show 0 < (rs.filter fun r => r.updateAvailable).length
    exact List.length_pos_of_mem (List.mem_filter.mpr ⟨hmem, hua⟩)

/-- C10 witness: a caret specifier leaves clean absent, and latest 17.0.2
exceeds 0.0.0. -/
theorem c10_unresolved_baseline_witness :
    (CheckCmd.processCheckDependency
      (mkDepRecord "dependencies" "react" "^17.0.0") (some "17.0.2")
      []).updateAvailable = true
    ∧ (CheckCmd.processCheckDependency
      (mkDepRecord "dependencies" "react" "^17.0.0") (some "17.0.2")
      []).updateType = some "unknown" :=
  ⟨(c10_unresolved_baseline (mkDepRecord "dependencies" "react" "^17.0.0")
      "17.0.2" [] (by decide) (by decide)).1,
   (c10_unresolved_baseline (mkDepRecord "dependencies" "react" "^17.0.0")
      "17.0.2" [] (by decide) (by decide)).2.1⟩

/-- C9: extractDependencies returns a map with pairwise distinct keys, and
every name is bound to the record built from its last occurrence in the
fixed section order dependencies, devDependencies, peerDependencies,
optionalDependencies, then manifest order: last write wins. -/
theorem c9_extractor_last_write_wins (pkg : PackageJson) :
    ((extractDependencies pkg).map Prod.fst).Nodup
    ∧ ∀ name : String,
        getMap (extractDependencies pkg) name
          = match (allEntries pkg).reverse.find? (fun e => e.2.1 == name) with
            | some e => some (mkDepRecord e.1 e.2.1 e.2.2)
            | none => none := by
  rw [extractDependencies_eq]
  refine ⟨keys_nodup_foldl _ _ (by simp), ?_⟩
  intro name
  rw [getMap_foldl]
  cases (allEntries pkg).reverse.find? fun e => e.2.1 == name <;> rfl

/-- C5: for a threshold among the four severity levels, the audit filter
keeps exactly the findings whose severity rank is at least the threshold
rank in the order low < moderate < high < critical, preserving duplicate
counts, and the displayed list is a permutation of the kept findings
ordered from highest severity to lowest, critical rank first. -/
theorem c5_security_classifier (severityLevel : String)
    (hs : severityLevel ∈ AuditCmd.severityLevels)
    (vulns : List CheckCmd.Finding) :
    (∀ f : CheckCmd.Finding,
      (AuditCmd.auditFilter severityLevel vulns).count f
        = if severityRank severityLevel ≤ severityRank f.severity
          then vulns.count f else 0)
    ∧ (AuditCmd.sortVulns (AuditCmd.auditFilter severityLevel vulns)).Perm
        (AuditCmd.auditFilter severityLevel vulns)
    ∧ (AuditCmd.sortVulns (AuditCmd.auditFilter severityLevel vulns)).Pairwise
        fun a b => AuditCmd.severityOrderRank a.severity
          ≤ AuditCmd.severityOrderRank b.severity := by
  have hfe : AuditCmd.auditFilter severityLevel vulns
      = vulns.filter fun v2 =>
          decide (severityRank severityLevel ≤ severityRank v2.severity) := by
    unfold AuditCmd.auditFilter
    dsimp only
    rw [jsToLower_levels hs]
    refine List.filter_congr ?_
    intro v2 hv2
    rw [jsIndexOf_levels, jsIndexOf_levels]
  refine ⟨?_, sortDesc_perm _ _, ?_⟩
  · intro f
    rw [hfe, count_filter_eq]
    by_cases hcond : severityRank severityLevel ≤ severityRank f.severity <;>
      simp [hcond]
  · have hpw := sortDesc_pairwise
      (cmpLaws_flip (cmpOn_laws fun g : CheckCmd.Finding =>
        AuditCmd.severityOrderRank g.severity))
      (AuditCmd.auditFilter severityLevel vulns)
    refine List.Pairwise.imp ?_ hpw
    intro a b hab
    exact le_of_not_lt fun hl => hab ((cmp_eq_lt_iff _ _).mpr hl)

/-- C5 witness: the classifier at threshold high on a three-finding list. -/
theorem c5_security_classifier_witness :
    (AuditCmd.sortVulns (AuditCmd.auditFilter "high"
      [⟨"v1", "moderate", "", "", "", "", ""⟩,
       ⟨"v2", "high", "", "", "", "", ""⟩,
       ⟨"v3", "critical", "", "", "", "", ""⟩])).Perm
      (AuditCmd.auditFilter "high"
      [⟨"v1", "moderate", "", "", "", "", ""⟩,
       ⟨"v2", "high", "", "", "", "", ""⟩,
       ⟨"v3", "critical", "", "", "", "", ""⟩]) :=
  (c5_security_classifier "high" (by decide) _).2.1

theorem head?_some_ex {α : Type} {l : List α} {a : α} (h : l.head? = some a) :
    ∃ t, l = a :: t := by
  cases l with
  | nil => exact Option.noConfusion h
  | cons b t =>
    injection h with h2
    exact ⟨t, by rw [h2]⟩

theorem mem_recs_cases {avail : List UpdateCmd.UpdateCandidate} {im : Bool}
    {r : UpdateCmd.Recommendation}
    (he : ¬avail.isEmpty = true)
    (hr : r ∈ UpdateCmd.generateRecommendations avail im) :
    (∃ p rest, avail.filter (fun u => u.type == "patch") = p :: rest
      ∧ r = ⟨"patch", p.version, "high", "Safe bug fixes and improvements",
          false⟩)
    ∨ (∃ p rest, avail.filter (fun u => u.type == "minor") = p :: rest
      ∧ r = ⟨"minor", p.version, "medium", "New features and improvements",
          false⟩)
    ∨ (im = true
      ∧ ∃ p rest, avail.filter (fun u => u.type == "major") = p :: rest
        ∧ r = ⟨"major", p.version, "low",
            "Major version with potential breaking changes", true⟩) := by
  rw [generateRecommendations_eq, if_neg he] at hr
  rcases List.mem_append.mp hr with h12 | h3
  · rcases List.mem_append.mp h12 with h1 | h2
    · rcases Option.map_eq_some'.mp
        (Option.mem_def.mp (Option.mem_toList.mp h1)) with ⟨p, hp, hgp⟩
      rcases head?_some_ex hp with ⟨rest, hrest⟩
      exact Or.inl ⟨p, rest, hrest, hgp.symm⟩
    · rcases Option.map_eq_some'.mp
        (Option.mem_def.mp (Option.mem_toList.mp h2)) with ⟨p, hp, hgp⟩
      rcases head?_some_ex hp with ⟨rest, hrest⟩
      exact Or.inr (Or.inl ⟨p, rest, hrest, hgp.symm⟩)
  · cases him : im with
    | false => rw [him] at h3; simp at h3
    | true =>
      rw [him] at h3
      rw [if_pos rfl] at h3
      rcases Option.map_eq_some'.mp
        (Option.mem_def.mp (Option.mem_toList.mp h3)) with ⟨p, hp, hgp⟩
      rcases head?_some_ex hp with ⟨rest, hrest⟩
      exact Or.inr (Or.inr ⟨rfl, p, rest, hrest, hgp.symm⟩)

/-- C2: for every current range, published version list and include-major
flag, the recommender emits at most 3 recommendations with at most one per
bucket; each emitted recommendation names an available update of its bucket
that no other available update of the same bucket exceeds under
semver.compare; a major recommendation appears only when the include-major
option is set; priority is patch high, minor medium, major low, and
breaking holds exactly for the major bucket; and an unresolvable current
version yields no recommendations. -/
theorem c2_update_recommender (currentRange : VersionRangeInfo)
    (allVersions : List String) (includeMajor : Bool) :
    (UpdateCmd.generateRecommendations
      (UpdateCmd.analyzeAvailableUpdates currentRange allVersions includeMajor)
      includeMajor).length ≤ 3
    ∧ (∀ t ∈ (["patch", "minor", "major"] : List String),
        ((UpdateCmd.generateRecommendations
          (UpdateCmd.analyzeAvailableUpdates currentRange allVersions
            includeMajor) includeMajor).filter
              fun r => r.type == t).length ≤ 1)
    ∧ (∀ r ∈ UpdateCmd.generateRecommendations
          (UpdateCmd.analyzeAvailableUpdates currentRange allVersions
            includeMajor) includeMajor,
        ∃ u ∈ UpdateCmd.analyzeAvailableUpdates currentRange allVersions
            includeMajor,
          u.version = r.version ∧ u.type = r.type
          ∧ ∀ u2 ∈ UpdateCmd.analyzeAvailableUpdates currentRange allVersions
              includeMajor,
            u2.type = r.type → (svCmp u2.sv u.sv).isLE = true)
    ∧ ((∃ r ∈ UpdateCmd.generateRecommendations
          (UpdateCmd.analyzeAvailableUpdates currentRange allVersions
            includeMajor) includeMajor, r.type = "major")
        → includeMajor = true)
    ∧ (∀ r ∈ UpdateCmd.generateRecommendations
          (UpdateCmd.analyzeAvailableUpdates currentRange allVersions
            includeMajor) includeMajor,
        (r.type = "patch" → r.priority = "high")
        ∧ (r.type = "minor" → r.priority = "medium")
        ∧ (r.type = "major" → r.priority = "low")
        ∧ (r.breaking = true ↔ r.type = "major"))
    ∧ (currentRange.clean = none →
        UpdateCmd.generateRecommendations
          (UpdateCmd.analyzeAvailableUpdates currentRange allVersions
            includeMajor) includeMajor = []) := by
  have hpw := analyze_pairwise currentRange allVersions includeMajor
  set avail := UpdateCmd.analyzeAvailableUpdates currentRange allVersions
    includeMajor with havail
  have hgre := generateRecommendations_eq avail includeMajor
  by_cases he : avail.isEmpty = true
  · rw [if_pos he] at hgre
    rw [hgre]
    refine ⟨by simp, by intro t ht; simp, by intro r hr; simp at hr,
      ?_, by intro r hr; simp at hr, fun hcl => rfl⟩
    rintro ⟨r, hr, hty⟩
    simp at hr
  · rw [if_neg he] at hgre
    refine ⟨?_, ?_, ?_, ?_, ?_, ?_⟩
    · rw [hgre]
      by_cases him : includeMajor = true <;>
        cases hp : (avail.filter fun u => u.type == "patch").head? <;>
          cases hm : (avail.filter fun u => u.type == "minor").head? <;>
            cases hj : (avail.filter fun u => u.type == "major").head? <;>
              simp [him]
    · intro t ht
      rw [hgre]
      simp only [AuditCmd.severityLevels, List.mem_cons, List.not_mem_nil,
        or_false] at ht
      rcases ht with rfl | rfl | rfl <;>
        by_cases him : includeMajor = true <;>
          cases hp : (avail.filter fun u => u.type == "patch").head? <;>
            cases hm : (avail.filter fun u => u.type == "minor").head? <;>
              cases hj : (avail.filter fun u => u.type == "major").head? <;>
                simp [him]
    · intro r hr
      rcases mem_recs_cases he hr with ⟨p, rest, hfil, hre⟩
        | ⟨p, rest, hfil, hre⟩ | ⟨him, p, rest, hfil, hre⟩
      · rcases filter_head_max hpw _ hfil with ⟨hmem, hpt, hmax⟩
        refine ⟨p, hmem, by rw [hre], ?_, ?_⟩
        · rw [hre]
          simpa using hpt
        · intro u2 hu2 ht2
          apply hmax u2 hu2
          rw [hre] at ht2
          simp [ht2]
      · rcases filter_head_max hpw _ hfil with ⟨hmem, hpt, hmax⟩
        refine ⟨p, hmem, by rw [hre], ?_, ?_⟩
        · rw [hre]
          simpa using hpt
        · intro u2 hu2 ht2
          apply hmax u2 hu2
          rw [hre] at ht2
          simp [ht2]
      · rcases filter_head_max hpw _ hfil with ⟨hmem, hpt, hmax⟩
        refine ⟨p, hmem, by rw [hre], ?_, ?_⟩
        · rw [hre]
          simpa using hpt
        · intro u2 hu2 ht2
          apply hmax u2 hu2
          rw [hre] at ht2
          simp [ht2]
    · rintro ⟨r, hr, hty⟩
      rcases mem_recs_cases he hr with ⟨p, rest, hfil, hre⟩
        | ⟨p, rest, hfil, hre⟩ | ⟨him, _⟩
      · rw [hre] at hty
        simp at hty
      · rw [hre] at hty
        simp at hty
      · exact him
    · intro r hr
      rcases mem_recs_cases he hr with ⟨p, rest, hfil, hre⟩
        | ⟨p, rest, hfil, hre⟩ | ⟨him, p, rest, hfil, hre⟩
      · subst hre
        exact ⟨fun _ => rfl, by simp, by simp, by simp⟩
      · subst hre
        exact ⟨by simp, fun _ => rfl, by simp, by simp⟩
      · subst hre
        exact ⟨by simp, by simp, fun _ => rfl, by simp⟩
    · intro hcl
      have hav : avail = [] := by
        rw [havail]
        unfold UpdateCmd.analyzeAvailableUpdates
        rw [hcl]
      rw [hav]
      rfl

/-- C2 witness: a caret range resolves to no exact current version, so no
recommendations are produced. -/
theorem c2_update_recommender_witness :
    UpdateCmd.generateRecommendations
      (UpdateCmd.analyzeAvailableUpdates (parseVersionRange "^1.0.0")
        ["1.0.1", "1.2.0"] true) true = [] :=
  (c2_update_recommender (parseVersionRange "^1.0.0") ["1.0.1", "1.2.0"]
    true).2.2.2.2.2 (by decide)
